import Mathlib

/-!
Shallow embedding of the planetsim-rs repository: the arbitrary-precision
vector/matrix algebra (`src/decimal_vector_3d.rs`, `src/decimal_matrix_3d.rs`)
and the hierarchical orbital simulation engine (`src/simulation.rs`).

The arbitrary-precision decimal scalar is modelled by `ℚ` (the spec assumes a
decimal provider with exact `+ - * /`); the external square-root and
trigonometric-series collaborators (the `sin_cos` module, absent from the
sources) are abstracted as a parameter `DecimalOps`, so every theorem holds
for an arbitrary provider.
-/

set_option maxHeartbeats 1000000
set_option maxRecDepth 10000

/-- Truncate-toward-zero fractional part of a rational, modelling the decimal
provider's `fract` operation (`(time / orbit_period).fract()`'s behaviour:
the fractional part keeps the sign of the argument). -/
def dfract (q : ℚ) : ℚ := q - ((q.num.tdiv (q.den : ℤ) : ℤ) : ℚ)

/-- Modelled from the spec: the external collaborators excluded from the
repository sources (the decimal square root, the truncated-series `sin` and
`cos` of the missing `sin_cos` module, and its precomputed `2π` constant
`PIMUL2`).  All simulation definitions are parametric in this provider. -/
structure DecimalOps where
  sqrt : ℚ → ℚ
  sin : ℚ → ℕ → ℚ
  cos : ℚ → ℕ → ℚ
  pi2 : ℚ

/-- `DecimalVector3d` from `src/decimal_vector_3d.rs`. -/
structure DecimalVector3d where
  x : ℚ
  y : ℚ
  z : ℚ
deriving DecidableEq

namespace DecimalVector3d

/-- `DecimalVector3d::zero`. -/
def zero : DecimalVector3d := ⟨0, 0, 0⟩

/-- Componentwise vector addition (`impl Add<DecimalVector3d>`). -/
def add (a b : DecimalVector3d) : DecimalVector3d :=
  ⟨a.x + b.x, a.y + b.y, a.z + b.z⟩

/-- Componentwise vector subtraction (`impl Sub<DecimalVector3d>`). -/
def sub (a b : DecimalVector3d) : DecimalVector3d :=
  ⟨a.x - b.x, a.y - b.y, a.z - b.z⟩

/-- Componentwise negation (used to state the antisymmetry of `cross`). -/
def neg (a : DecimalVector3d) : DecimalVector3d := ⟨-a.x, -a.y, -a.z⟩

/-- Vector-by-scalar multiplication (`impl Mul<DBig> for DecimalVector3d`). -/
def smul (a : DecimalVector3d) (s : ℚ) : DecimalVector3d :=
  ⟨a.x * s, a.y * s, a.z * s⟩

/-- Vector-by-scalar division (`impl Div<DBig> for DecimalVector3d`). -/
def sdiv (a : DecimalVector3d) (s : ℚ) : DecimalVector3d :=
  ⟨a.x / s, a.y / s, a.z / s⟩

instance : Add DecimalVector3d := ⟨add⟩
instance : Sub DecimalVector3d := ⟨sub⟩

/-- `DecimalVector3d::length_squared`. -/
def length_squared (a : DecimalVector3d) : ℚ := a.x * a.x + a.y * a.y + a.z * a.z

/-- `DecimalVector3d::length`: the provider's square root of the sum of
component squares. -/
def length (D : DecimalOps) (a : DecimalVector3d) : ℚ :=
  D.sqrt (a.x * a.x + a.y * a.y + a.z * a.z)

/-- `DecimalVector3d::distance_to`. -/
def distance_to (D : DecimalOps) (a b : DecimalVector3d) : ℚ :=
  length D (sub a b)

/-- `DecimalVector3d::normalized`: divide by the length. -/
def normalized (D : DecimalOps) (a : DecimalVector3d) : DecimalVector3d :=
  sdiv a (length D a)

/-- `DecimalVector3d::dot`. -/
def dot (a b : DecimalVector3d) : ℚ := a.x * b.x + a.y * b.y + a.z * b.z

/-- `DecimalVector3d::cross`. -/
def cross (a b : DecimalVector3d) : DecimalVector3d :=
  ⟨a.y * b.z - a.z * b.y, a.z * b.x - a.x * b.z, a.x * b.y - a.y * b.x⟩

end DecimalVector3d

/-- `DecimalMatrix3d` from `src/decimal_matrix_3d.rs`; field `mij` embeds
`data[i][j]`. -/
structure DecimalMatrix3d where
  m00 : ℚ
  m01 : ℚ
  m02 : ℚ
  m10 : ℚ
  m11 : ℚ
  m12 : ℚ
  m20 : ℚ
  m21 : ℚ
  m22 : ℚ
deriving DecidableEq

namespace DecimalMatrix3d

/-- `DecimalMatrix3d::identity`. -/
def identity : DecimalMatrix3d := ⟨1, 0, 0, 0, 1, 0, 0, 0, 1⟩

/-- `DecimalMatrix3d::axis_angle`: Rodrigues rotation built from
`cos(-angle, 32)` and `sin(-angle, 32)` (the angle negation matching the
source's external-engine convention). -/
def axis_angle (D : DecimalOps) (axis : DecimalVector3d) (angle : ℚ) : DecimalMatrix3d :=
  let c := D.cos (-angle) 32
  let s := D.sin (-angle) 32
  let omc := 1 - c
  { m00 := omc * axis.x * axis.x + c
    m01 := omc * axis.x * axis.y - axis.z * s
    m02 := omc * axis.z * axis.x + axis.y * s
    m10 := omc * axis.x * axis.y + axis.z * s
    m11 := omc * axis.y * axis.y + c
    m12 := omc * axis.y * axis.z - axis.x * s
    m20 := omc * axis.z * axis.x - axis.y * s
    m21 := omc * axis.y * axis.z + axis.x * s
    m22 := omc * axis.z * axis.z + c }

/-- `DecimalMatrix3d::apply`, with the source's transposed index order:
`result.x = data[0][0]·v.x + data[1][0]·v.y + data[2][0]·v.z` and cyclic. -/
def apply (m : DecimalMatrix3d) (v : DecimalVector3d) : DecimalVector3d :=
  { x := 0 + m.m00 * v.x + m.m10 * v.y + m.m20 * v.z
    y := 0 + m.m01 * v.x + m.m11 * v.y + m.m21 * v.z
    z := 0 + m.m02 * v.x + m.m12 * v.y + m.m22 * v.z }

end DecimalMatrix3d

/-- Modelled from the spec: `StaticBodyDynamics` of the missing `body` module
("Static: fixed global position, time-independent"), as used by
`src/simulation.rs` and `src/main.rs`. -/
structure StaticBodyDynamics where
  position : DecimalVector3d
deriving DecidableEq

/-- Modelled from the spec: `OrbitingBodyDynamics` of the missing `body`
module ("Orbiting: circular orbit around the parent: radius, period, unit
orbit_plane_normal"). -/
structure OrbitingBodyDynamics where
  orbit_radius : ℚ
  orbit_period : ℚ
  orbit_plane_normal : DecimalVector3d
deriving DecidableEq

/-- Modelled from the spec: the `BodyDynamics` tagged union
`{Static{position}, Orbiting{radius, period, plane_normal}}`. -/
inductive BodyDynamics where
  | static (d : StaticBodyDynamics)
  | orbiting (d : OrbitingBodyDynamics)
deriving DecidableEq

/-- Modelled from the spec: the immutable input `Body` descriptor of the
missing `body` module: name, dynamics variant, mass, ordered satellite list,
spin axis and period. -/
inductive Body where
  | mk (name : String) (dynamics : BodyDynamics) (mass : ℚ)
       (satellites : List Body) (rotation_axis : DecimalVector3d)
       (rotation_period : ℚ)

mutual

/-- Decidable equality for the nested `Body` inductive. -/
def Body.decEq (a b : Body) : Decidable (a = b) :=
  match a, b with
  | .mk n1 d1 m1 s1 a1 p1, .mk n2 d2 m2 s2 a2 p2 =>
    haveI : Decidable (s1 = s2) := Body.decEqList s1 s2
    if h : n1 = n2 ∧ d1 = d2 ∧ m1 = m2 ∧ s1 = s2 ∧ a1 = a2 ∧ p1 = p2 then
      isTrue (by
        obtain ⟨h1, h2, h3, h4, h5, h6⟩ := h
        subst h1; subst h2; subst h3; subst h4; subst h5; subst h6; rfl)
    else
      isFalse (fun hEq => absurd
        (by cases hEq; exact ⟨rfl, rfl, rfl, rfl, rfl, rfl⟩) h)

/-- Decidable equality on lists of `Body`. -/
def Body.decEqList (a b : List Body) : Decidable (a = b) :=
  match a, b with
  | [], [] => isTrue rfl
  | [], _ :: _ => isFalse (by intro h; cases h)
  | _ :: _, [] => isFalse (by intro h; cases h)
  | x :: xs, y :: ys =>
    match Body.decEq x y, Body.decEqList xs ys with
    | isTrue hx, isTrue hxs => isTrue (by rw [hx, hxs])
    | isFalse hx, _ => isFalse (fun h => by cases h; exact hx rfl)
    | _, isFalse hxs => isFalse (fun h => by cases h; exact hxs rfl)

end

instance : DecidableEq Body := Body.decEq

namespace Body

def name : Body → String
  | .mk n _ _ _ _ _ => n

def dynamics : Body → BodyDynamics
  | .mk _ d _ _ _ _ => d

def mass : Body → ℚ
  | .mk _ _ m _ _ _ => m

def satellites : Body → List Body
  | .mk _ _ _ s _ _ => s

def rotation_axis : Body → DecimalVector3d
  | .mk _ _ _ _ a _ => a

def rotation_period : Body → ℚ
  | .mk _ _ _ _ _ p => p

end Body

mutual

/-- Number of bodies in a `Body` tree (the number of `SimulatedBody` records
one `add_hierarchy` call inserts). -/
def Body.size : Body → ℕ
  | .mk _ _ _ sats _ _ => 1 + Body.sizeList sats

/-- Total number of bodies in a forest of `Body` trees. -/
def Body.sizeList : List Body → ℕ
  | [] => 0
  | b :: rest => Body.size b + Body.sizeList rest

end

/-- `SimulatedBody` from `src/simulation.rs`. -/
structure SimulatedBody where
  id : ℤ
  body : Body
  position : DecimalVector3d
  velocity : DecimalVector3d
  orientation : DecimalMatrix3d
  parent : Option ℤ
  satellites : List ℤ
deriving DecidableEq

/-- `Simulation` from `src/simulation.rs`. -/
structure Simulation where
  bodies : List SimulatedBody
  id_counter : ℤ
deriving DecidableEq

/-- `G_CONSTANT = 0.0000000000667408` from `src/simulation.rs`. -/
def G_CONSTANT : ℚ := 667408 / 10000000000000000

namespace Simulation

/-- `Simulation::new`. -/
def new : Simulation := ⟨[], 0⟩

mutual

/-- `Simulation::add_hierarchy`: assigns the next id, recursively registers
the satellite subtrees (each subtree's records are pushed before this body's
own record), then pushes this body's record. -/
def add_hierarchy (sim : Simulation) (body : Body) (parent : Option ℤ) :
    Simulation × ℤ :=
  match body with
  | .mk nm dyn ms sats ax rp =>
    let new_id := sim.id_counter
    let sim1 : Simulation := ⟨sim.bodies, sim.id_counter + 1⟩
    let res := add_hierarchy_list sim1 sats new_id
    let sb : SimulatedBody :=
      { id := new_id
        body := .mk nm dyn ms sats ax rp
        position := DecimalVector3d.zero
        velocity := DecimalVector3d.zero
        orientation := DecimalMatrix3d.identity
        parent := parent
        satellites := res.2 }
    (⟨res.1.bodies ++ [sb], res.1.id_counter⟩, new_id)

/-- The `for i in 0..body.satellites.len()` loop inside `add_hierarchy`:
registers each satellite in order, collecting the returned ids. -/
def add_hierarchy_list (sim : Simulation) (bodies : List Body) (parent_id : ℤ) :
    Simulation × List ℤ :=
  match bodies with
  | [] => (sim, [])
  | b :: rest =>
    let res := add_hierarchy sim b (some parent_id)
    let res2 := add_hierarchy_list res.1 rest parent_id
    (res2.1, res.2 :: res2.2)

end

/-- `Simulation::get_body_by_name`: first body whose descriptor name matches. -/
def get_body_by_name (sim : Simulation) (name : String) : Option SimulatedBody :=
  sim.bodies.find? (fun b => b.body.name = name)

/-- `Simulation::get_body_by_id`: first body whose id matches. -/
def get_body_by_id (sim : Simulation) (id : ℤ) : Option SimulatedBody :=
  sim.bodies.find? (fun b => b.id = id)

/-- `Simulation::get_body`: by-name lookup whose failure is a panic in the
source (`unwrap`), embedded as `none`. -/
def get_body (sim : Simulation) (name : String) : Option SimulatedBody :=
  get_body_by_name sim name

/-- The recursion of `Simulation::resolve_hierarchy_down` over a list of
satellite ids.  The source recurses through stored satellite links and
diverges on a cyclic store; the embedding makes it total with a fuel
argument, which callers instantiate large enough for every well-formed
(acyclic) store. -/
def resolve_down_aux (sim : Simulation) : ℕ → List ℤ → List SimulatedBody
  | 0, _ => []
  | _ + 1, [] => []
  | fuel + 1, sid :: rest =>
    (match get_body_by_id sim sid with
     | none => []
     | some sat => sat :: resolve_down_aux sim fuel sat.satellites) ++
    resolve_down_aux sim (fuel + 1) rest

/-- `Simulation::resolve_hierarchy_down`: all stored descendants of `body`
(the body itself excluded), depth-first, each satellite immediately followed
by its own subtree. -/
def resolve_hierarchy_down (sim : Simulation) (body : SimulatedBody) :
    List SimulatedBody :=
  resolve_down_aux sim (sim.bodies.length) body.satellites

/-- `Simulation::get_body_position`: a Static body's fixed position; an
Orbiting body's closed-form circular-orbit offset added to the parent's
current runtime position.  The source's `unwrap` panics on a missing parent
are embedded as `none`. -/
def get_body_position (D : DecimalOps) (sim : Simulation) (time : ℚ)
    (body : SimulatedBody) : Option DecimalVector3d :=
  match body.body.dynamics with
  | .static d => some d.position
  | .orbiting d =>
    match body.parent with
    | none => none
    | some pid =>
      match get_body_by_id sim pid with
      | none => none
      | some parent =>
        let orbit_progression := dfract (time / d.orbit_period)
        let angle := D.pi2 * orbit_progression
        let rotation_matrix := DecimalMatrix3d.axis_angle D d.orbit_plane_normal angle
        some (DecimalVector3d.add
          (rotation_matrix.apply ⟨d.orbit_radius, 0, 0⟩) parent.position)

/-- `Simulation::get_body_orientation`: spin rotation from the body's own
rotation axis and period. -/
def get_body_orientation (D : DecimalOps) (time : ℚ) (body : SimulatedBody) :
    DecimalMatrix3d :=
  let rotation_progression := dfract (time / body.body.rotation_period)
  let angle := D.pi2 * rotation_progression
  DecimalMatrix3d.axis_angle D body.body.rotation_axis angle

/-- The schedule built by the first loop of `Simulation::update`: for every
Static-dynamics body, in storage order, the ids of its down-hierarchy. -/
def schedIds (sim : Simulation) : List ℤ :=
  sim.bodies.flatMap (fun b =>
    match b.body.dynamics with
    | .static _ => (resolve_hierarchy_down sim b).map (fun s => s.id)
    | .orbiting _ => [])

/-- Overwrite the position, velocity and orientation of the first stored body
with the given id (the in-place mutation through
`Simulation::get_mut_body_by_id`). -/
def writeList (l : List SimulatedBody) (id : ℤ) (pos vel : DecimalVector3d)
    (orient : DecimalMatrix3d) : List SimulatedBody :=
  match l with
  | [] => []
  | b :: rest =>
    if b.id = id then
      { b with position := pos, velocity := vel, orientation := orient } :: rest
    else
      b :: writeList rest id pos vel orient

/-- State after overwriting one body's derived fields. -/
def writeBody (sim : Simulation) (id : ℤ) (pos vel : DecimalVector3d)
    (orient : DecimalMatrix3d) : Simulation :=
  ⟨writeList sim.bodies id pos vel orient, sim.id_counter⟩

/-- One iteration of the second loop of `Simulation::update`: look up the
scheduled body, compute position at `time` and at `time − 1`, take their
difference as velocity, compute orientation, and commit all three.  The
source's `unwrap` panics are embedded as `none`. -/
def updStep (D : DecimalOps) (time : ℚ) (sim : Simulation) (id : ℤ) :
    Option Simulation :=
  match get_body_by_id sim id with
  | none => none
  | some b =>
    match get_body_position D sim time b, get_body_position D sim (time - 1) b with
    | some pos, some pos_second_ago =>
      some (writeBody sim id pos (DecimalVector3d.sub pos pos_second_ago)
        (get_body_orientation D time b))
    | _, _ => none

/-- The second loop of `Simulation::update`, run over a schedule. -/
def runSchedule (D : DecimalOps) (time : ℚ) : List ℤ → Simulation → Option Simulation
  | [], sim => some sim
  | id :: rest, sim =>
    match updStep D time sim id with
    | none => none
    | some sim1 => runSchedule D time rest sim1

/-- `Simulation::update`: build the schedule from the Static roots, then
process it in order. -/
def update (D : DecimalOps) (sim : Simulation) (time : ℚ) : Option Simulation :=
  runSchedule D time (schedIds sim) sim

/-- The running-minimum loop of `Simulation::find_closest_static`; `none` as
the running minimum embeds the `DBig::INFINITY` seed. -/
def fcsLoop (D : DecimalOps) (point : DecimalVector3d) :
    List SimulatedBody → SimulatedBody → Option ℚ → SimulatedBody
  | [], closest, _ => closest
  | b :: rest, closest, minDist =>
    match b.body.dynamics with
    | .static _ =>
      let d := DecimalVector3d.distance_to D b.position point
      match minDist with
      | none => fcsLoop D point rest b (some d)
      | some m =>
        if d < m then fcsLoop D point rest b (some d)
        else fcsLoop D point rest closest minDist
    | .orbiting _ => fcsLoop D point rest closest minDist

/-- `Simulation::find_closest_static`: linear scan over Static bodies keeping
the first strict improvement; seeded with the first stored body, so the
source panics (embedded as `none`) only on an empty store. -/
def find_closest_static (D : DecimalOps) (sim : Simulation)
    (point : DecimalVector3d) : Option SimulatedBody :=
  match sim.bodies with
  | [] => none
  | b0 :: _ => some (fcsLoop D point sim.bodies b0 none)

/-- The per-body contribution summed by `Simulation::calculate_gravity_flux`:
`relative * (1 / length * strength)`. -/
def fluxContrib (D : DecimalOps) (point : DecimalVector3d) (body : SimulatedBody) :
    DecimalVector3d :=
  let relative := DecimalVector3d.sub body.position point
  let length_squared := relative.length_squared
  let length := D.sqrt length_squared
  let strength := G_CONSTANT * body.body.mass / length_squared
  relative.smul (1 / length * strength)

/-- `Simulation::calculate_gravity_flux`: sum of the contributions of the
closest static body's down-hierarchy followed by the closest static body
itself. -/
def calculate_gravity_flux (D : DecimalOps) (sim : Simulation)
    (point : DecimalVector3d) : Option DecimalVector3d :=
  match find_closest_static D sim point with
  | none => none
  | some closest_static =>
    let hierarchy := resolve_hierarchy_down sim closest_static ++ [closest_static]
    some (hierarchy.foldl
      (fun flux b => DecimalVector3d.add flux (fluxContrib D point b))
      DecimalVector3d.zero)

end Simulation

/-- Whether a stored body has Static dynamics. -/
def SimulatedBody.isStatic (b : SimulatedBody) : Bool :=
  match b.body.dynamics with
  | .static _ => true
  | .orbiting _ => false

/-- The `update`-invariant part of a stored record: everything except the
three derived fields (position, velocity, orientation) that `update`
overwrites. -/
def SimulatedBody.stripState (b : SimulatedBody) : ℤ × Body × Option ℤ × List ℤ :=
  (b.id, b.body, b.parent, b.satellites)

namespace Simulation

/-- Check on the last scheduled occurrence of `id`: if the body is Orbiting,
its parent id must not occur at this position or later in the remaining
schedule (so the parent's runtime position is already final when the body is
written for the last time). -/
def lastOccCondB (sim : Simulation) (id : ℤ) (rest : List ℤ) : Bool :=
  match get_body_by_id sim id with
  | none => true
  | some b =>
    match b.body.dynamics, b.parent with
    | .orbiting _, some pid => decide (pid ≠ id) && decide (pid ∉ rest)
    | _, _ => true

/-- `lastOccCondB` at every last occurrence along a schedule. -/
def schedOKAuxB (sim : Simulation) : List ℤ → Bool
  | [] => true
  | id :: rest =>
    (if id ∈ rest then true else lastOccCondB sim id rest) && schedOKAuxB sim rest

/-- Well-ordering of the schedule produced by `update`'s first loop: every
Orbiting body's parent is fully updated before the body's own last update.
This holds for every simulation built through `add_hierarchy` (ids are fresh
and satellite links form a forest stored in post-order). -/
def schedOK (sim : Simulation) : Prop := schedOKAuxB sim (schedIds sim) = true

instance (sim : Simulation) : Decidable (schedOK sim) := by
  unfold schedOK; infer_instance

/-- The `find_closest_static` scan, additionally returning the running
minimum; `fcsLoop` is its first component. -/
def fcsLoopPair (D : DecimalOps) (point : DecimalVector3d) :
    List SimulatedBody → SimulatedBody → Option ℚ → SimulatedBody × Option ℚ
  | [], closest, minDist => (closest, minDist)
  | b :: rest, closest, minDist =>
    match b.body.dynamics with
    | .static _ =>
      let d := DecimalVector3d.distance_to D b.position point
      match minDist with
      | none => fcsLoopPair D point rest b (some d)
      | some m =>
        if d < m then fcsLoopPair D point rest b (some d)
        else fcsLoopPair D point rest closest minDist
    | .orbiting _ => fcsLoopPair D point rest closest minDist

/-- The gravity-flux contribution as the spec words it:
`normalize(body.position − point) · G · mass / distance²`. -/
def fluxContribSpec (D : DecimalOps) (point : DecimalVector3d)
    (body : SimulatedBody) : DecimalVector3d :=
  let relative := DecimalVector3d.sub body.position point
  (relative.normalized D).smul
    (G_CONSTANT * body.body.mass / relative.length_squared)

/-- Sum of a list of vectors, accumulated left to right from zero the way
`calculate_gravity_flux` accumulates. -/
def sumVecs (l : List DecimalVector3d) : DecimalVector3d :=
  l.foldl DecimalVector3d.add DecimalVector3d.zero

mutual

/-- The block of records one `add_hierarchy` call appends: the satellite
subtrees' blocks in order, then the root's own record; ids assigned
pre-order from `counter`. -/
def flattenBody (counter : ℤ) (p : Option ℤ) : Body → List SimulatedBody
  | .mk nm dyn ms sats ax rp =>
    let res := flattenList (counter + 1) counter sats
    res.1 ++ [{ id := counter
                body := .mk nm dyn ms sats ax rp
                position := DecimalVector3d.zero
                velocity := DecimalVector3d.zero
                orientation := DecimalMatrix3d.identity
                parent := p
                satellites := res.2 }]

/-- The blocks appended for a list of sibling subtrees, together with the
list of their roots' ids. -/
def flattenList (counter : ℤ) (pid : ℤ) : List Body → List SimulatedBody × List ℤ
  | [] => ([], [])
  | b :: rest =>
    let blk := flattenBody counter (some pid) b
    let res2 := flattenList (counter + Body.size b) pid rest
    (blk ++ res2.1, counter :: res2.2)

end

/-- Simulations reachable through the public construction API: a fresh
simulation extended by `add_hierarchy` calls whose parent argument, when
present, names an already-stored body. -/
inductive Built : Simulation → Prop where
  | base : Built Simulation.new
  | step (sim : Simulation) (b : Body) (p : Option ℤ) :
      Built sim →
      (∀ pid, p = some pid → ∃ e ∈ sim.bodies, e.id = pid) →
      Built (add_hierarchy sim b p).1

end Simulation

/-- A concrete decimal provider used to evaluate the theorems on concrete
inputs (the theorems themselves are parametric in the provider). -/
def testOps : DecimalOps :=
  { sqrt := fun q => q
    sin := fun a _ => a
    cos := fun _ _ => 1
    pi2 := 6 }

/-- Concrete orbiting grandchild body. -/
def moonB : Body :=
  .mk "moon" (.orbiting ⟨4, 3, ⟨0, 1, 0⟩⟩) 5 [] ⟨0, 1, 0⟩ 7

/-- Concrete orbiting child body with one satellite. -/
def earthB : Body :=
  .mk "earth" (.orbiting ⟨10, 5, ⟨0, 1, 0⟩⟩) 6 [moonB] ⟨0, 1, 0⟩ 2

/-- Concrete static root with a two-level orbiting subtree. -/
def sunB : Body :=
  .mk "sun" (.static ⟨⟨1, 2, 3⟩⟩) 1000 [earthB] ⟨0, 1, 0⟩ 9

/-- Three-body simulation built through `add_hierarchy`. -/
def testSim : Simulation :=
  (Simulation.add_hierarchy Simulation.new sunB none).1

/-- `testSim` advanced once to time 5. -/
def testSim1 : Simulation :=
  (Simulation.update testOps testSim 5).getD Simulation.new

/-- The stored record of `earthB` inside `testSim`. -/
def earthRec : SimulatedBody :=
  { id := 1, body := earthB, position := DecimalVector3d.zero
    velocity := DecimalVector3d.zero, orientation := DecimalMatrix3d.identity
    parent := some 0, satellites := [2] }

/-- The stored record of `sunB` inside `testSim`. -/
def sunRec : SimulatedBody :=
  { id := 0, body := sunB, position := DecimalVector3d.zero
    velocity := DecimalVector3d.zero, orientation := DecimalMatrix3d.identity
    parent := none, satellites := [1] }

/-- `testSim` after one `updStep` on body 1. -/
def stepSim : Simulation :=
  (Simulation.updStep testOps 5 testSim 1).getD Simulation.new

/-- A single static body whose fixed position is nonzero. -/
def cexStaticBody : Body :=
  .mk "lone" (.static ⟨⟨1, 2, 3⟩⟩) 1 [] ⟨0, 1, 0⟩ 1

/-- Simulation holding only `cexStaticBody`. -/
def cexSim1 : Simulation :=
  (Simulation.add_hierarchy Simulation.new cexStaticBody none).1

/-- A childless body used to exhibit a dangling parent id. -/
def cexLeafBody : Body :=
  .mk "leaf" (.orbiting ⟨1, 1, ⟨0, 1, 0⟩⟩) 1 [] ⟨0, 1, 0⟩ 1

/-- Simulation produced by a single `add_hierarchy` call whose parent
argument names no stored body. -/
def cexSim5 : Simulation :=
  (Simulation.add_hierarchy Simulation.new cexLeafBody (some 5)).1

namespace Simulation

/-- The ids of the strict descendants of the trees of a sibling forest whose
roots start at id `c`, in depth-first pre-order — the order and content of
`resolve_hierarchy_down` on a freshly registered static body's down-tree
(pre-order id assignment makes this list strictly increasing). -/
def schedDescList : ℤ → List Body → List ℤ
  | _, [] => []
  | c, .mk _ _ _ sats _ _ :: rest =>
    c :: (schedDescList (c + 1) sats ++
      schedDescList (c + 1 + (Body.sizeList sats : ℤ)) rest)

mutual

/-- The schedule entries contributed by one registered tree with root id `c`:
the contributions of its satellite subtrees (in storage order), then — when
the root is Static — its own down-hierarchy segment. -/
def blockSchedB : ℤ → Body → List ℤ
  | c, .mk _ dyn _ sats _ _ =>
    blockSchedList (c + 1) sats ++
      (match dyn with
       | .static _ => schedDescList (c + 1) sats
       | .orbiting _ => [])

/-- The schedule entries contributed by a forest of sibling trees. -/
def blockSchedList : ℤ → List Body → List ℤ
  | _, [] => []
  | c, b :: rest => blockSchedB c b ++ blockSchedList (c + (Body.size b : ℤ)) rest

end

/-- Simulation states reachable through the public API: a fresh simulation,
extended by arbitrary `add_hierarchy` calls and successful `update` calls. -/
inductive Reachable : Simulation → Prop where
  | base : Reachable Simulation.new
  | add (sim : Simulation) (b : Body) (p : Option ℤ) :
      Reachable sim → Reachable (add_hierarchy sim b p).1
  | upd (D : DecimalOps) (sim : Simulation) (t : ℚ) (sim' : Simulation) :
      Reachable sim → update D sim t = some sim' → Reachable sim'

/-- Structural store invariant of reachable simulations: stored ids are below
the counter and duplicate-free, and every stored satellite id names a body
stored strictly earlier. -/
def simInv (sim : Simulation) : Prop :=
  (∀ e ∈ sim.bodies, e.id < sim.id_counter) ∧
  (sim.bodies.map (fun e => e.id)).Nodup ∧
  (∀ u e v, sim.bodies = u ++ e :: v →
    ∀ sid ∈ e.satellites, ∃ y ∈ u, y.id = sid)

end Simulation

/-!
Theorems.
-/

open Simulation

/-- C9: for all vectors `a` and `b`, `cross(a, b)` equals the componentwise
negation of `cross(b, a)`, and `cross(a, a)` is the zero vector, exactly. -/
theorem claim_C9_cross_antisymm (a b : DecimalVector3d) :
    DecimalVector3d.cross a b = DecimalVector3d.neg (DecimalVector3d.cross b a) ∧
    DecimalVector3d.cross a a = DecimalVector3d.zero := by
  constructor <;>
    simp only [DecimalVector3d.cross, DecimalVector3d.neg, DecimalVector3d.zero,
      DecimalVector3d.mk.injEq] <;>
    refine ⟨by ring, by ring, by ring⟩

/-- C2: for every Orbiting body whose parent record exists,
`get_body_position` is the axis-angle rotation for the orbit plane normal and
angle `2π · frac(time / orbit_period)` applied to `(orbit_radius, 0, 0)`,
plus the parent's current runtime position field. -/
theorem claim_C2_orbiting_position (D : DecimalOps) (sim : Simulation) (t : ℚ)
    (b : SimulatedBody) (d : OrbitingBodyDynamics) (pid : ℤ)
    (parent : SimulatedBody)
    (hd : b.body.dynamics = .orbiting d) (hp : b.parent = some pid)
    (hl : get_body_by_id sim pid = some parent) :
    get_body_position D sim t b = some (DecimalVector3d.add
      ((DecimalMatrix3d.axis_angle D d.orbit_plane_normal
          (D.pi2 * dfract (t / d.orbit_period))).apply ⟨d.orbit_radius, 0, 0⟩)
      parent.position) := by
  simp only [get_body_position, hd, hp, hl]

/-- Witness for C2 on the concrete three-body simulation. -/
theorem claim_C2_orbiting_position_witness :
    get_body_position testOps testSim 5 earthRec = some (DecimalVector3d.add
      ((DecimalMatrix3d.axis_angle testOps ⟨0, 1, 0⟩
          (testOps.pi2 * dfract (5 / 5))).apply ⟨10, 0, 0⟩)
      sunRec.position) :=
  claim_C2_orbiting_position testOps testSim 5 earthRec ⟨10, 5, ⟨0, 1, 0⟩⟩ 0
    sunRec rfl rfl (by with_unfolding_all decide)

/-- C8: computing an Orbiting body's position succeeds exactly when the
parent id is present and its record is stored, and `get_body` succeeds
exactly when a body of that name is stored; both are pure queries (the
embedding returns `none` where the source aborts by panicking, with the
simulation value untouched). -/
theorem claim_C8_fail_fast (D : DecimalOps) (sim : Simulation) (t : ℚ)
    (b : SimulatedBody) (nm : String) :
    ((get_body_position D sim t b).isSome ↔
      (∃ sd, b.body.dynamics = .static sd) ∨
      (∃ d pid parent, b.body.dynamics = .orbiting d ∧ b.parent = some pid ∧
        get_body_by_id sim pid = some parent)) ∧
    ((get_body sim nm).isSome ↔ ∃ e ∈ sim.bodies, e.body.name = nm) := by
  constructor
  · unfold get_body_position
    cases hdy : b.body.dynamics with
    | static sd => simp [hdy]
    | orbiting d =>
      cases hp : b.parent with
      | none => simp [hdy, hp]
      | some pid =>
        cases hl : get_body_by_id sim pid with
        | none => simp [hdy, hp, hl]
        | some parent => simp [hdy, hp, hl]
  · unfold get_body get_body_by_name
    rw [List.find?_isSome]
    simp

/-- C7: each schedule step of `update` looks the body up, computes the
position at `time` and at `time − 1`, writes their difference as the
velocity, and commits position, velocity and orientation together; `update`
is exactly this step run over the schedule. -/
theorem claim_C7_velocity_difference (D : DecimalOps) (t : ℚ) :
    (∀ sim : Simulation, update D sim t = runSchedule D t (schedIds sim) sim) ∧
    (∀ (sim sim' : Simulation) (id : ℤ), updStep D t sim id = some sim' →
      ∃ b pos pos1, get_body_by_id sim id = some b ∧
        get_body_position D sim t b = some pos ∧
        get_body_position D sim (t - 1) b = some pos1 ∧
        sim' = writeBody sim id pos (DecimalVector3d.sub pos pos1)
          (get_body_orientation D t b)) := by
  refine ⟨fun _ => rfl, fun sim sim' id h => ?_⟩
  unfold updStep at h
  split at h
  · exact absurd h (by simp)
  · split at h
    · cases h with
      | refl => exact ⟨_, _, _, by assumption, by assumption, by assumption, rfl⟩
    · exact absurd h (by simp)

/-- Witness for C7: one concrete schedule step on the three-body simulation. -/
theorem claim_C7_velocity_difference_witness :
    updStep testOps 5 testSim 1 = some stepSim ∧
    (∃ b pos pos1, get_body_by_id testSim 1 = some b ∧
      get_body_position testOps testSim 5 b = some pos ∧
      get_body_position testOps testSim (5 - 1) b = some pos1 ∧
      stepSim = writeBody testSim 1 pos (DecimalVector3d.sub pos pos1)
        (get_body_orientation testOps 5 b)) :=
  ⟨by with_unfolding_all decide,
    (claim_C7_velocity_difference testOps 5).2 testSim stepSim 1
      (by with_unfolding_all decide)⟩

/-- The scan of `find_closest_static` is the first component of the
min-tracking scan. -/
theorem fcsLoop_eq_pair (D : DecimalOps) (point : DecimalVector3d) :
    ∀ (l : List SimulatedBody) (c : SimulatedBody) (m : Option ℚ),
      fcsLoop D point l c m = (fcsLoopPair D point l c m).1 := by
  intro l
  induction l with
  | nil => intro c m; rfl
  | cons b rest ih =>
    intro c m
    simp only [fcsLoop, fcsLoopPair]
    cases hb : b.body.dynamics with
    | static sd =>
      cases m with
      | none => exact ih b _
      | some mv =>
        dsimp only
        split
        · exact ih b _
        · exact ih c _
    | orbiting od => exact ih c m

/-- Invariant of the `find_closest_static` scan: either no Static body was
seen and the seed survives with the running minimum unchanged, or the result
is the first Static body of the scanned list attaining the minimum distance
(strictly below the incoming running minimum). -/
theorem fcsLoopPair_spec (D : DecimalOps) (point : DecimalVector3d) :
    ∀ (l : List SimulatedBody) (c : SimulatedBody) (m : Option ℚ),
      (((fcsLoopPair D point l c m).1 = c ∧ (fcsLoopPair D point l c m).2 = m ∧
        ∀ b ∈ l, b.isStatic = true →
          ∃ m0, m = some m0 ∧ m0 ≤ DecimalVector3d.distance_to D b.position point) ∨
      (∃ i, ∃ hi : i < l.length,
        (fcsLoopPair D point l c m).1 = l.get ⟨i, hi⟩ ∧
        (fcsLoopPair D point l c m).1.isStatic = true ∧
        (fcsLoopPair D point l c m).2 =
          some (DecimalVector3d.distance_to D (fcsLoopPair D point l c m).1.position point) ∧
        (∀ m0, m = some m0 →
          DecimalVector3d.distance_to D (fcsLoopPair D point l c m).1.position point < m0) ∧
        (∀ j, ∀ hj : j < l.length, (l.get ⟨j, hj⟩).isStatic = true →
          DecimalVector3d.distance_to D (fcsLoopPair D point l c m).1.position point ≤
            DecimalVector3d.distance_to D (l.get ⟨j, hj⟩).position point ∧
          (j < i →
            DecimalVector3d.distance_to D (fcsLoopPair D point l c m).1.position point <
              DecimalVector3d.distance_to D (l.get ⟨j, hj⟩).position point)))) := by
  intro l
  induction l with
  | nil =>
    intro c m
    left
    exact ⟨rfl, rfl, by simp⟩
  | cons b rest ih =>
    intro c m
    simp only [fcsLoopPair]
    cases hb : b.body.dynamics with
    | orbiting od =>
      rcases ih c m with ⟨h1, h2, h3⟩ | ⟨i, hi, h1, h2, h3, h4, h5⟩
      · left
        refine ⟨h1, h2, ?_⟩
        intro b' hb' hbs
        rcases List.mem_cons.1 hb' with rfl | hb'
        · exact absurd hbs (by simp [SimulatedBody.isStatic, hb])
        · exact h3 b' hb' hbs
      · right
        refine ⟨i + 1, by simpa using Nat.succ_lt_succ hi, h1, h2, h3, h4, ?_⟩
        intro j hj hjs
        cases j with
        | zero => exact absurd hjs (by simp [SimulatedBody.isStatic, hb])
        | succ j0 =>
          have hj0 : j0 < rest.length := by simpa using Nat.lt_of_succ_lt_succ hj
          have := h5 j0 hj0 (by simpa using hjs)
          exact ⟨this.1, fun hlt => this.2 (Nat.lt_of_succ_lt_succ hlt)⟩
    | static sd =>
      have hbs : b.isStatic = true := by simp [SimulatedBody.isStatic, hb]
      cases m with
      | none =>
        rcases ih b (some (DecimalVector3d.distance_to D b.position point)) with
          ⟨h1, h2, h3⟩ | ⟨i, hi, h1, h2, h3, h4, h5⟩
        · right
          refine ⟨0, by simp, h1, by rw [h1]; exact hbs, by rw [h1, h2], by simp, ?_⟩
          intro j hj hjs
          cases j with
          | zero => exact ⟨by simp [h1], fun h => absurd h (by simp)⟩
          | succ j0 =>
            have hj0 : j0 < rest.length := by simpa using Nat.lt_of_succ_lt_succ hj
            rcases h3 (rest.get ⟨j0, hj0⟩) (List.get_mem rest j0 hj0) (by simpa using hjs) with
              ⟨m0, hm0, hle⟩
            refine ⟨?_, fun h => absurd h (by simp)⟩
            rw [h1]
            have : DecimalVector3d.distance_to D b.position point = m0 :=
              Option.some.inj hm0
            simpa [this] using hle
        · right
          refine ⟨i + 1, by simpa using Nat.succ_lt_succ hi, h1, h2, h3, by simp, ?_⟩
          intro j hj hjs
          cases j with
          | zero =>
            have hlt := h4 _ rfl
            exact ⟨le_of_lt hlt, fun _ => hlt⟩
          | succ j0 =>
            have hj0 : j0 < rest.length := by simpa using Nat.lt_of_succ_lt_succ hj
            have := h5 j0 hj0 (by simpa using hjs)
            exact ⟨this.1, fun hlt => this.2 (Nat.lt_of_succ_lt_succ hlt)⟩
      | some mv =>
        dsimp only
        split
        · rename_i hdlt
          rcases ih b (some (DecimalVector3d.distance_to D b.position point)) with
            ⟨h1, h2, h3⟩ | ⟨i, hi, h1, h2, h3, h4, h5⟩
          · right
            refine ⟨0, by simp, h1, by rw [h1]; exact hbs, by rw [h1, h2],
              fun m0 hm0 => by rw [h1]; exact (Option.some.inj hm0) ▸ hdlt, ?_⟩
            intro j hj hjs
            cases j with
            | zero => exact ⟨by simp [h1], fun h => absurd h (by simp)⟩
            | succ j0 =>
              have hj0 : j0 < rest.length := by simpa using Nat.lt_of_succ_lt_succ hj
              rcases h3 (rest.get ⟨j0, hj0⟩) (List.get_mem rest j0 hj0) (by simpa using hjs) with
                ⟨m0, hm0, hle⟩
              refine ⟨?_, fun h => absurd h (by simp)⟩
              rw [h1]
              have : DecimalVector3d.distance_to D b.position point = m0 :=
                Option.some.inj hm0
              simpa [this] using hle
          · right
            have hrlt : DecimalVector3d.distance_to D
                (fcsLoopPair D point rest b
                  (some (DecimalVector3d.distance_to D b.position point))).1.position point <
                DecimalVector3d.distance_to D b.position point := h4 _ rfl
            refine ⟨i + 1, by simpa using Nat.succ_lt_succ hi, h1, h2, h3,
              fun m0 hm0 => by
                rw [← Option.some.inj hm0]
                exact lt_trans (h1 ▸ hrlt) hdlt, ?_⟩
            intro j hj hjs
            cases j with
            | zero => exact ⟨le_of_lt (h1 ▸ hrlt), fun _ => h1 ▸ hrlt⟩
            | succ j0 =>
              have hj0 : j0 < rest.length := by simpa using Nat.lt_of_succ_lt_succ hj
              have := h5 j0 hj0 (by simpa using hjs)
              exact ⟨this.1, fun hlt => this.2 (Nat.lt_of_succ_lt_succ hlt)⟩
        · rename_i hdge
          have hmvle : mv ≤ DecimalVector3d.distance_to D b.position point :=
            le_of_not_lt hdge
          rcases ih c (some mv) with ⟨h1, h2, h3⟩ | ⟨i, hi, h1, h2, h3, h4, h5⟩
          · left
            refine ⟨h1, h2, ?_⟩
            intro b' hb' hbs'
            rcases List.mem_cons.1 hb' with rfl | hb'
            · exact ⟨mv, rfl, hmvle⟩
            · exact h3 b' hb' hbs'
          · right
            have hrlt := h4 mv rfl
            refine ⟨i + 1, by simpa using Nat.succ_lt_succ hi, h1, h2, h3, h4, ?_⟩
            intro j hj hjs
            cases j with
            | zero =>
              exact ⟨le_of_lt (lt_of_lt_of_le hrlt hmvle),
                fun _ => lt_of_lt_of_le hrlt hmvle⟩
            | succ j0 =>
              have hj0 : j0 < rest.length := by simpa using Nat.lt_of_succ_lt_succ hj
              have := h5 j0 hj0 (by simpa using hjs)
              exact ⟨this.1, fun hlt => this.2 (Nat.lt_of_succ_lt_succ hlt)⟩

/-- C6: with at least one stored body and at least one Static body,
`find_closest_static` returns a stored Static body of minimal scan distance
to the point, and on ties the first-encountered one in storage order (every
earlier Static body is strictly farther). -/
theorem claim_C6_find_closest_static (D : DecimalOps) (sim : Simulation)
    (point : DecimalVector3d) (hne : sim.bodies ≠ [])
    (hst : ∃ b ∈ sim.bodies, b.isStatic = true) :
    ∃ res, find_closest_static D sim point = some res ∧
      ∃ i, ∃ hi : i < sim.bodies.length,
        res = sim.bodies.get ⟨i, hi⟩ ∧ res.isStatic = true ∧
        (∀ j, ∀ hj : j < sim.bodies.length,
          (sim.bodies.get ⟨j, hj⟩).isStatic = true →
          DecimalVector3d.distance_to D res.position point ≤
            DecimalVector3d.distance_to D (sim.bodies.get ⟨j, hj⟩).position point) ∧
        (∀ j, ∀ hj : j < sim.bodies.length, j < i →
          (sim.bodies.get ⟨j, hj⟩).isStatic = true →
          DecimalVector3d.distance_to D res.position point <
            DecimalVector3d.distance_to D (sim.bodies.get ⟨j, hj⟩).position point) := by
  rcases hl : sim.bodies with _ | ⟨b0, rest⟩
  · exact absurd hl hne
  · refine ⟨fcsLoop D point (b0 :: rest) b0 none, ?_, ?_⟩
    · unfold find_closest_static
      rw [hl]
    · rw [fcsLoop_eq_pair]
      rcases fcsLoopPair_spec D point (b0 :: rest) b0 none with
        ⟨_, _, h3⟩ | ⟨i, hi, h1, h2, _, _, h5⟩
      · rcases hst with ⟨bs, hbs, hbss⟩
        rw [hl] at hbs
        rcases h3 bs hbs hbss with ⟨m0, hm0, _⟩
        exact absurd hm0 (by simp)
      · exact ⟨i, hi, h1, h2,
          fun j hj hjs => (h5 j hj hjs).1,
          fun j hj hji hjs => (h5 j hj hjs).2 hji⟩

/-- Witness for C6 on the concrete three-body simulation. -/
theorem claim_C6_find_closest_static_witness :
    ∃ res, find_closest_static testOps testSim ⟨0, 0, 0⟩ = some res ∧
      ∃ i, ∃ hi : i < testSim.bodies.length,
        res = testSim.bodies.get ⟨i, hi⟩ ∧ res.isStatic = true ∧
        (∀ j, ∀ hj : j < testSim.bodies.length,
          (testSim.bodies.get ⟨j, hj⟩).isStatic = true →
          DecimalVector3d.distance_to testOps res.position ⟨0, 0, 0⟩ ≤
            DecimalVector3d.distance_to testOps
              (testSim.bodies.get ⟨j, hj⟩).position ⟨0, 0, 0⟩) ∧
        (∀ j, ∀ hj : j < testSim.bodies.length, j < i →
          (testSim.bodies.get ⟨j, hj⟩).isStatic = true →
          DecimalVector3d.distance_to testOps res.position ⟨0, 0, 0⟩ <
            DecimalVector3d.distance_to testOps
              (testSim.bodies.get ⟨j, hj⟩).position ⟨0, 0, 0⟩) :=
  claim_C6_find_closest_static testOps testSim ⟨0, 0, 0⟩
    (by with_unfolding_all decide) (by with_unfolding_all decide)

/-- The summed gravity contribution of the source equals the spec's
`normalize(position − point) · G · mass / distance²` form, exactly, for any
square-root provider. -/
theorem fluxContrib_eq_spec (D : DecimalOps) (point : DecimalVector3d)
    (b : SimulatedBody) : fluxContrib D point b = fluxContribSpec D point b := by
  unfold fluxContrib fluxContribSpec
  simp only [DecimalVector3d.normalized, DecimalVector3d.smul, DecimalVector3d.sdiv,
    DecimalVector3d.length, DecimalVector3d.length_squared, DecimalVector3d.sub,
    DecimalVector3d.mk.injEq]
  refine ⟨by ring, by ring, by ring⟩

/-- Folding the source's contribution over a list from any accumulator is
folding the spec-side contributions. -/
theorem flux_foldl_eq (D : DecimalOps) (point : DecimalVector3d) :
    ∀ (l : List SimulatedBody) (acc : DecimalVector3d),
      l.foldl (fun flux b => DecimalVector3d.add flux (fluxContrib D point b)) acc =
        (l.map (fluxContribSpec D point)).foldl DecimalVector3d.add acc := by
  intro l
  induction l with
  | nil => intro acc; rfl
  | cons b rest ih =>
    intro acc
    calc List.foldl (fun flux b => DecimalVector3d.add flux (fluxContrib D point b))
          acc (b :: rest)
        = List.foldl (fun flux b => DecimalVector3d.add flux (fluxContrib D point b))
            (DecimalVector3d.add acc (fluxContrib D point b)) rest := by
          simp only [List.foldl_cons]
      _ = (rest.map (fluxContribSpec D point)).foldl DecimalVector3d.add
            (DecimalVector3d.add acc (fluxContrib D point b)) := ih _
      _ = (rest.map (fluxContribSpec D point)).foldl DecimalVector3d.add
            (DecimalVector3d.add acc (fluxContribSpec D point b)) := by
          rw [fluxContrib_eq_spec]
      _ = ((b :: rest).map (fluxContribSpec D point)).foldl DecimalVector3d.add acc := by
          simp only [List.map_cons, List.foldl_cons]

/-- Helper: under the hypotheses of the gravity query, `find_closest_static`
succeeds and returns a Static body. -/
theorem fcs_returns_static (D : DecimalOps) (sim : Simulation)
    (point : DecimalVector3d) (hne : sim.bodies ≠ [])
    (hst : ∃ b ∈ sim.bodies, b.isStatic = true) :
    ∃ c, find_closest_static D sim point = some c ∧ c.isStatic = true := by
  rcases hl : sim.bodies with _ | ⟨b0, rest⟩
  · exact absurd hl hne
  · refine ⟨fcsLoop D point (b0 :: rest) b0 none, ?_, ?_⟩
    · unfold find_closest_static
      rw [hl]
    · rw [fcsLoop_eq_pair]
      rcases fcsLoopPair_spec D point (b0 :: rest) b0 none with
        ⟨_, _, h3⟩ | ⟨i, hi, h1, h2, _, _, h5⟩
      · rcases hst with ⟨bs, hbs, hbss⟩
        rw [hl] at hbs
        rcases h3 bs hbs hbss with ⟨m0, hm0, _⟩
        exact absurd hm0 (by simp)
      · exact h2

/-- C3: with at least one stored body and at least one Static body,
`calculate_gravity_flux` is exactly the sum, over the closest static body
and all of its descendants, of `normalize(position − point) · G · mass /
distance²` of the stored runtime positions; no other body contributes. -/
theorem claim_C3_gravity_flux (D : DecimalOps) (sim : Simulation)
    (point : DecimalVector3d) (hne : sim.bodies ≠ [])
    (hst : ∃ b ∈ sim.bodies, b.isStatic = true) :
    ∃ c, find_closest_static D sim point = some c ∧ c.isStatic = true ∧
      calculate_gravity_flux D sim point =
        some (sumVecs ((resolve_hierarchy_down sim c ++ [c]).map
          (fluxContribSpec D point))) := by
  rcases fcs_returns_static D sim point hne hst with ⟨c, hc, hcs⟩
  refine ⟨c, hc, hcs, ?_⟩
  unfold calculate_gravity_flux
  rw [hc]
  simp only [Option.some.injEq, sumVecs]
  exact flux_foldl_eq D point _ _

/-- Witness for C3 on the concrete three-body simulation. -/
theorem claim_C3_gravity_flux_witness :
    ∃ c, find_closest_static testOps testSim ⟨0, 0, 0⟩ = some c ∧
      c.isStatic = true ∧
      calculate_gravity_flux testOps testSim ⟨0, 0, 0⟩ =
        some (sumVecs ((resolve_hierarchy_down testSim c ++ [c]).map
          (fluxContribSpec testOps ⟨0, 0, 0⟩))) :=
  claim_C3_gravity_flux testOps testSim ⟨0, 0, 0⟩
    (by with_unfolding_all decide) (by with_unfolding_all decide)

/-- Components of `stripState` equality. -/
theorem stripState_parts {b1 b2 : SimulatedBody}
    (h : b1.stripState = b2.stripState) :
    b1.id = b2.id ∧ b1.body = b2.body ∧ b1.parent = b2.parent ∧
      b1.satellites = b2.satellites := by
  unfold SimulatedBody.stripState at h
  simp only [Prod.mk.injEq] at h
  exact ⟨h.1, h.2.1, h.2.2.1, h.2.2.2⟩

/-- Overwriting derived fields preserves the descriptor part of every stored
record. -/
theorem writeList_map_strip (id : ℤ) (p v : DecimalVector3d)
    (o : DecimalMatrix3d) :
    ∀ l : List SimulatedBody,
      (writeList l id p v o).map SimulatedBody.stripState =
        l.map SimulatedBody.stripState := by
  intro l
  induction l with
  | nil => rfl
  | cons b rest ih =>
    unfold writeList
    by_cases hb : b.id = id
    · simp [hb, SimulatedBody.stripState]
    · simp only [hb, if_false, List.map_cons, ih]

/-- Looking up a different id is unaffected by an overwrite. -/
theorem find_writeList_ne (id id' : ℤ) (p v : DecimalVector3d)
    (o : DecimalMatrix3d) (h : id' ≠ id) :
    ∀ l : List SimulatedBody,
      (writeList l id p v o).find? (fun b => b.id = id') =
        l.find? (fun b => b.id = id') := by
  intro l
  induction l with
  | nil => rfl
  | cons b rest ih =>
    unfold writeList
    by_cases hb : b.id = id
    · have hb' : ¬ (b.id = id') := fun hc => h (hc ▸ hb ▸ rfl)
      rw [if_pos hb, List.find?_cons_of_neg _ (by simpa using hb'),
        List.find?_cons_of_neg _ (by simpa using hb')]
    · rw [if_neg hb]
      by_cases hb' : b.id = id'
      · rw [List.find?_cons_of_pos _ (by simpa using hb'),
          List.find?_cons_of_pos _ (by simpa using hb')]
      · rw [List.find?_cons_of_neg _ (by simpa using hb'),
          List.find?_cons_of_neg _ (by simpa using hb'), ih]

/-- Looking up the overwritten id returns the updated record. -/
theorem find_writeList_eq (id : ℤ) (p v : DecimalVector3d)
    (o : DecimalMatrix3d) :
    ∀ (l : List SimulatedBody) (b : SimulatedBody),
      l.find? (fun b => b.id = id) = some b →
      (writeList l id p v o).find? (fun b => b.id = id) =
        some { b with position := p, velocity := v, orientation := o } := by
  intro l
  induction l with
  | nil => intro b h; cases h
  | cons c rest ih =>
    intro b h
    unfold writeList
    by_cases hc : c.id = id
    · rw [List.find?_cons_of_pos _ (by simpa using hc)] at h
      cases h
      rw [if_pos hc, List.find?_cons_of_pos _ (by simpa using hc)]
    · rw [List.find?_cons_of_neg _ (by simpa using hc)] at h
      rw [if_neg hc, List.find?_cons_of_neg _ (by simpa using hc), ih b h]

/-- Overwriting with the values already stored is the identity. -/
theorem writeList_self (id : ℤ) (p v : DecimalVector3d) (o : DecimalMatrix3d) :
    ∀ (l : List SimulatedBody) (b : SimulatedBody),
      l.find? (fun b => b.id = id) = some b →
      b.position = p → b.velocity = v → b.orientation = o →
      writeList l id p v o = l := by
  intro l
  induction l with
  | nil => intro b h; cases h
  | cons c rest ih =>
    intro b h hp hv ho
    unfold writeList
    by_cases hc : c.id = id
    · rw [List.find?_cons_of_pos _ (by simpa using hc)] at h
      cases h
      rw [if_pos hc, ← hp, ← hv, ← ho]
    · rw [List.find?_cons_of_neg _ (by simpa using hc)] at h
      rw [if_neg hc, ih b h hp hv ho]

/-- Lookup by id only depends on the descriptor part of the store. -/
theorem find_strip_congr (id : ℤ) :
    ∀ (l1 l2 : List SimulatedBody),
      l1.map SimulatedBody.stripState = l2.map SimulatedBody.stripState →
      Option.map SimulatedBody.stripState (l1.find? (fun b => b.id = id)) =
        Option.map SimulatedBody.stripState (l2.find? (fun b => b.id = id)) := by
  intro l1
  induction l1 with
  | nil =>
    intro l2 h
    cases l2 with
    | nil => rfl
    | cons c cs => cases h
  | cons b bs ih =>
    intro l2 h
    cases l2 with
    | nil => cases h
    | cons c cs =>
      simp only [List.map_cons, List.cons.injEq] at h
      have hid : b.id = c.id := (stripState_parts h.1).1
      by_cases hb : b.id = id
      · rw [List.find?_cons_of_pos _ (by simpa using hb),
          List.find?_cons_of_pos _ (by simpa using (hid ▸ hb : c.id = id))]
        simp [h.1]
      · rw [List.find?_cons_of_neg _ (by simpa using hb),
          List.find?_cons_of_neg _ (by simpa [← hid] using hb)]
        exact ih cs h.2

/-- `get_body_by_id` as a `find?`. -/
theorem get_body_by_id_def (sim : Simulation) (id : ℤ) :
    get_body_by_id sim id = sim.bodies.find? (fun b => b.id = id) := rfl

/-- A found body is a stored body carrying the looked-up id. -/
theorem get_body_by_id_mem {sim : Simulation} {id : ℤ} {b : SimulatedBody}
    (h : get_body_by_id sim id = some b) : b ∈ sim.bodies ∧ b.id = id := by
  rw [get_body_by_id_def] at h
  exact ⟨List.mem_of_find?_eq_some h, by simpa using List.find?_some h⟩

/-- Characterization of one successful `updStep`. -/
theorem updStep_char {D : DecimalOps} {t : ℚ} {sim sim' : Simulation} {id : ℤ}
    (h : updStep D t sim id = some sim') :
    ∃ b pos pos1, get_body_by_id sim id = some b ∧
      get_body_position D sim t b = some pos ∧
      get_body_position D sim (t - 1) b = some pos1 ∧
      sim' = writeBody sim id pos (DecimalVector3d.sub pos pos1)
        (get_body_orientation D t b) := by
  unfold updStep at h
  split at h
  · exact absurd h (by simp)
  · split at h
    · cases h with
      | refl => exact ⟨_, _, _, by assumption, by assumption, by assumption, rfl⟩
    · exact absurd h (by simp)

/-- One `updStep` preserves the descriptor parts and the id counter. -/
theorem updStep_strip {D : DecimalOps} {t : ℚ} {sim sim' : Simulation} {id : ℤ}
    (h : updStep D t sim id = some sim') :
    sim'.bodies.map SimulatedBody.stripState =
      sim.bodies.map SimulatedBody.stripState ∧
    sim'.id_counter = sim.id_counter := by
  rcases updStep_char h with ⟨b, pos, pos1, _, _, _, rfl⟩
  exact ⟨writeList_map_strip _ _ _ _ _, rfl⟩

/-- One `updStep` leaves every other id's lookup unchanged. -/
theorem updStep_find_ne {D : DecimalOps} {t : ℚ} {sim sim' : Simulation}
    {id : ℤ} (id' : ℤ) (h : updStep D t sim id = some sim') (hne : id' ≠ id) :
    get_body_by_id sim' id' = get_body_by_id sim id' := by
  rcases updStep_char h with ⟨b, pos, pos1, _, _, _, rfl⟩
  exact find_writeList_ne id id' _ _ _ hne sim.bodies

/-- Decomposing a successful schedule run over an append. -/
theorem runSchedule_append {D : DecimalOps} {t : ℚ} :
    ∀ {l1 l2 : List ℤ} {s s' : Simulation},
      runSchedule D t (l1 ++ l2) s = some s' →
      ∃ sm, runSchedule D t l1 s = some sm ∧ runSchedule D t l2 sm = some s' := by
  intro l1
  induction l1 with
  | nil => intro l2 s s' h; exact ⟨s, rfl, h⟩
  | cons id rest ih =>
    intro l2 s s' h
    rw [List.cons_append] at h
    unfold runSchedule at h
    split at h
    · exact absurd h (by simp)
    · rename_i sm1 hstep
      rcases ih h with ⟨sm, h1, h2⟩
      refine ⟨sm, ?_, h2⟩
      unfold runSchedule
      rw [hstep]
      exact h1

/-- A successful schedule run preserves descriptor parts and the counter. -/
theorem runSchedule_strip {D : DecimalOps} {t : ℚ} :
    ∀ {l : List ℤ} {s s' : Simulation}, runSchedule D t l s = some s' →
      s'.bodies.map SimulatedBody.stripState =
        s.bodies.map SimulatedBody.stripState ∧
      s'.id_counter = s.id_counter := by
  intro l
  induction l with
  | nil =>
    intro s s' h
    cases h with
    | refl => exact ⟨rfl, rfl⟩
  | cons id rest ih =>
    intro s s' h
    unfold runSchedule at h
    split at h
    · exact absurd h (by simp)
    · rename_i sm hstep
      have h1 := updStep_strip hstep
      have h2 := ih h
      exact ⟨h2.1.trans h1.1, h2.2.trans h1.2⟩

/-- A schedule run never touches ids outside the schedule. -/
theorem runSchedule_find_notin {D : DecimalOps} {t : ℚ} :
    ∀ {l : List ℤ} {s s' : Simulation} {id : ℤ},
      runSchedule D t l s = some s' → id ∉ l →
      get_body_by_id s' id = get_body_by_id s id := by
  intro l
  induction l with
  | nil =>
    intro s s' id h _
    cases h with
    | refl => rfl
  | cons i rest ih =>
    intro s s' id h hmem
    unfold runSchedule at h
    split at h
    · exact absurd h (by simp)
    · rename_i sm hstep
      have hne : id ≠ i := fun hc => hmem (hc ▸ List.mem_cons_self i rest)
      have hrest : id ∉ rest := fun hc => hmem (List.mem_cons_of_mem i hc)
      exact (ih h hrest).trans (updStep_find_ne id hstep hne)

/-- Splitting a list at the last occurrence of a member. -/
theorem mem_split_last {α : Type} [DecidableEq α] {x : α} :
    ∀ {l : List α}, x ∈ l → ∃ l1 l2, l = l1 ++ x :: l2 ∧ x ∉ l2 := by
  intro l
  induction l with
  | nil => intro h; cases h
  | cons a rest ih =>
    intro h
    by_cases hx : x ∈ rest
    · rcases ih hx with ⟨l1, l2, heq, hout⟩
      exact ⟨a :: l1, l2, by rw [heq]; rfl, hout⟩
    · rcases List.mem_cons.1 h with rfl | hmem
      · exact ⟨[], rest, rfl, hx⟩
      · exact absurd hmem hx

/-- A suffix of a well-ordered schedule is well-ordered. -/
theorem schedOKAuxB_append (sim : Simulation) :
    ∀ (l1 l2 : List ℤ), schedOKAuxB sim (l1 ++ l2) = true →
      schedOKAuxB sim l2 = true := by
  intro l1
  induction l1 with
  | nil => intro l2 h; exact h
  | cons i rest ih =>
    intro l2 h
    rw [List.cons_append] at h
    unfold schedOKAuxB at h
    rw [Bool.and_eq_true] at h
    exact ih l2 h.2

/-- Extracting the parent condition at a last occurrence. -/
theorem schedOKAuxB_last {sim : Simulation} {id : ℤ} {l2 : List ℤ}
    (h : schedOKAuxB sim (id :: l2) = true) (hout : id ∉ l2)
    {b : SimulatedBody} (hb : get_body_by_id sim id = some b)
    {d : OrbitingBodyDynamics} (hd : b.body.dynamics = .orbiting d)
    {pid : ℤ} (hp : b.parent = some pid) :
    pid ≠ id ∧ pid ∉ l2 := by
  unfold schedOKAuxB at h
  rw [Bool.and_eq_true] at h
  have h1 := h.1
  rw [if_neg hout] at h1
  unfold lastOccCondB at h1
  simp only [hb, hd, hp] at h1
  rw [Bool.and_eq_true, decide_eq_true_eq, decide_eq_true_eq] at h1
  exact h1

/-- `get_body_position` depends on the store only through the parent lookup
of an Orbiting body, and on the body only through its descriptor. -/
theorem get_body_position_congr (D : DecimalOps) (t : ℚ)
    {sim1 sim2 : Simulation} {b1 b2 : SimulatedBody}
    (hb : b1.stripState = b2.stripState)
    (hpar : ∀ d pid, b1.body.dynamics = .orbiting d → b1.parent = some pid →
      get_body_by_id sim1 pid = get_body_by_id sim2 pid) :
    get_body_position D sim1 t b1 = get_body_position D sim2 t b2 := by
  rcases stripState_parts hb with ⟨_, hbody, hparent, _⟩
  unfold get_body_position
  rw [← hbody, ← hparent]
  cases hdy : b1.body.dynamics with
  | static sd => rfl
  | orbiting d =>
    cases hp : b1.parent with
    | none => rfl
    | some pid => simp only [hpar d pid hdy hp]

/-- `get_body_orientation` depends only on the body's descriptor. -/
theorem get_body_orientation_congr (D : DecimalOps) (t : ℚ)
    {b1 b2 : SimulatedBody} (hb : b1.stripState = b2.stripState) :
    get_body_orientation D t b1 = get_body_orientation D t b2 := by
  rcases stripState_parts hb with ⟨_, hbody, _, _⟩
  unfold get_body_orientation
  rw [hbody]

/-- The down-hierarchy resolution depends only on descriptor parts. -/
theorem resolve_down_aux_strip {sim1 sim2 : Simulation}
    (h : sim1.bodies.map SimulatedBody.stripState =
      sim2.bodies.map SimulatedBody.stripState) :
    ∀ (fuel : ℕ) (ids : List ℤ),
      (resolve_down_aux sim1 fuel ids).map SimulatedBody.stripState =
        (resolve_down_aux sim2 fuel ids).map SimulatedBody.stripState := by
  intro fuel
  induction fuel with
  | zero => intro ids; simp [resolve_down_aux]
  | succ f ihf =>
    intro ids
    induction ids with
    | nil => simp [resolve_down_aux]
    | cons sid rest ihl =>
      unfold resolve_down_aux
      rw [List.map_append, List.map_append, ihl]
      have hfind := find_strip_congr sid sim1.bodies sim2.bodies h
      rw [← get_body_by_id_def, ← get_body_by_id_def] at hfind
      cases h1 : get_body_by_id sim1 sid with
      | none =>
        cases h2 : get_body_by_id sim2 sid with
        | none => rfl
        | some c => rw [h1, h2] at hfind; cases hfind
      | some c1 =>
        cases h2 : get_body_by_id sim2 sid with
        | none => rw [h1, h2] at hfind; cases hfind
        | some c2 =>
          rw [h1, h2] at hfind
          have hstrip : c1.stripState = c2.stripState := by
            simpa using hfind
          rcases stripState_parts hstrip with ⟨_, _, _, hsats⟩
          show (c1 :: resolve_down_aux sim1 f c1.satellites).map
              SimulatedBody.stripState ++
              (resolve_down_aux sim2 (f + 1) rest).map SimulatedBody.stripState =
            (c2 :: resolve_down_aux sim2 f c2.satellites).map
              SimulatedBody.stripState ++
              (resolve_down_aux sim2 (f + 1) rest).map SimulatedBody.stripState
          simp only [List.map_cons, List.cons_append, List.cons.injEq]
          exact ⟨hstrip, by rw [hsats, ihf c2.satellites]⟩

/-- The schedule depends only on descriptor parts. -/
theorem schedIds_strip {sim1 sim2 : Simulation}
    (h : sim1.bodies.map SimulatedBody.stripState =
      sim2.bodies.map SimulatedBody.stripState) :
    schedIds sim1 = schedIds sim2 := by
  have hlen : sim1.bodies.length = sim2.bodies.length := by
    have := congrArg List.length h
    simpa using this
  have hdown : ∀ ids,
      (resolve_down_aux sim1 sim1.bodies.length ids).map (fun s => s.id) =
        (resolve_down_aux sim2 sim2.bodies.length ids).map (fun s => s.id) := by
    intro ids
    rw [hlen]
    have := resolve_down_aux_strip h sim2.bodies.length ids
    have h1 := congrArg (List.map Prod.fst) this
    simpa [Function.comp, SimulatedBody.stripState] using h1
  unfold schedIds
  suffices hgen : ∀ l1 l2 : List SimulatedBody,
      l1.map SimulatedBody.stripState = l2.map SimulatedBody.stripState →
      (l1.flatMap (fun b =>
        match b.body.dynamics with
        | .static _ => (resolve_hierarchy_down sim1 b).map (fun s => s.id)
        | .orbiting _ => [])) =
      (l2.flatMap (fun b =>
        match b.body.dynamics with
        | .static _ => (resolve_hierarchy_down sim2 b).map (fun s => s.id)
        | .orbiting _ => [])) by
    exact hgen sim1.bodies sim2.bodies h
  intro l1
  induction l1 with
  | nil =>
    intro l2 hc
    cases l2 with
    | nil => rfl
    | cons c cs => cases hc
  | cons b bs ih =>
    intro l2 hc
    cases l2 with
    | nil => cases hc
    | cons c cs =>
      simp only [List.map_cons, List.cons.injEq] at hc
      rcases stripState_parts hc.1 with ⟨_, hbody, _, hsats⟩
      simp only [List.flatMap_cons]
      rw [ih cs hc.2, hbody]
      cases c.body.dynamics with
      | static sd =>
        unfold resolve_hierarchy_down
        rw [hsats, hdown c.satellites]
      | orbiting d => rfl

/-- Running the schedule over a state in which every scheduled body already
stores its recomputed position, velocity and orientation is the identity. -/
theorem runSchedule_noop (D : DecimalOps) (t : ℚ) (s : Simulation) :
    ∀ l : List ℤ,
      (∀ id ∈ l, ∃ b, get_body_by_id s id = some b ∧
        ∃ pt pt1, get_body_position D s t b = some pt ∧
          get_body_position D s (t - 1) b = some pt1 ∧
          b.position = pt ∧ b.velocity = DecimalVector3d.sub pt pt1 ∧
          b.orientation = get_body_orientation D t b) →
      runSchedule D t l s = some s := by
  intro l
  induction l with
  | nil => intro _; rfl
  | cons id rest ih =>
    intro h
    rcases h id (List.mem_cons_self id rest) with
      ⟨b, hb, pt, pt1, hpt, hpt1, hbp, hbv, hbo⟩
    have hstep : updStep D t s id = some s := by
      unfold updStep
      simp only [hb, hpt, hpt1]
      unfold writeBody
      rw [writeList_self id pt (DecimalVector3d.sub pt pt1)
        (get_body_orientation D t b) s.bodies b hb hbp hbv hbo]
    unfold runSchedule
    rw [hstep]
    exact ih (fun id' hid' => h id' (List.mem_cons_of_mem id hid'))

/-- After a successful `update` from a well-ordered schedule, every scheduled
body stores exactly the values that recomputing in the final state yields:
the final state is a fixed point of the schedule run. -/
theorem update_last_write (D : DecimalOps) (t : ℚ) {sim sim' : Simulation}
    (hok : schedOK sim) (h : update D sim t = some sim') :
    ∀ id ∈ schedIds sim, ∃ b, get_body_by_id sim' id = some b ∧
      ∃ pt pt1, get_body_position D sim' t b = some pt ∧
        get_body_position D sim' (t - 1) b = some pt1 ∧
        b.position = pt ∧ b.velocity = DecimalVector3d.sub pt pt1 ∧
        b.orientation = get_body_orientation D t b := by
  intro id hid
  rcases mem_split_last hid with ⟨l1, l2, hsplit, hout⟩
  unfold update at h
  rw [hsplit] at h
  rcases runSchedule_append h with ⟨T1, h1, h2⟩
  unfold runSchedule at h2
  cases hstep : updStep D t T1 id with
  | none => rw [hstep] at h2; exact absurd h2 (by simp)
  | some T2 =>
    rw [hstep] at h2
    rcases updStep_char hstep with ⟨b, pt, pt1, hb, hpt, hpt1, hT2⟩
    set bW : SimulatedBody := { b with position := pt, velocity := DecimalVector3d.sub pt pt1, orientation := get_body_orientation D t b } with hbWdef
    have hstripW : bW.stripState = b.stripState := rfl
    have hMT2 : get_body_by_id T2 id = some bW := by
      rw [hT2]
      exact find_writeList_eq id pt _ _ T1.bodies b hb
    have hM' : get_body_by_id sim' id = some bW := by
      rw [runSchedule_find_notin h2 hout]
      exact hMT2
    have hparlook : ∀ d pid, bW.body.dynamics = .orbiting d →
        bW.parent = some pid →
        get_body_by_id sim' pid = get_body_by_id T1 pid := by
      intro d pid hdyn hp
      have hstripT1 : T1.bodies.map SimulatedBody.stripState =
          sim.bodies.map SimulatedBody.stripState := (runSchedule_strip h1).1
      have hfind := find_strip_congr id sim.bodies T1.bodies hstripT1.symm
      rw [← get_body_by_id_def, ← get_body_by_id_def, hb] at hfind
      cases hb0 : get_body_by_id sim id with
      | none => rw [hb0] at hfind; cases hfind
      | some b0 =>
        rw [hb0] at hfind
        have hstrip0 : b0.stripState = b.stripState := by simpa using hfind
        rcases stripState_parts hstrip0 with ⟨_, hbody0, hparent0, _⟩
        have hok2 : schedOKAuxB sim (id :: l2) = true := by
          unfold schedOK at hok
          rw [hsplit] at hok
          exact schedOKAuxB_append sim l1 (id :: l2) hok
        have hdynb : b.body.dynamics = BodyDynamics.orbiting d := hdyn
        have hpb : b.parent = some pid := hp
        rcases schedOKAuxB_last hok2 hout hb0 (hbody0 ▸ hdynb)
            (hparent0 ▸ hpb) with ⟨hpne, hpout⟩
        rw [runSchedule_find_notin h2 hpout]
        exact updStep_find_ne pid hstep hpne
    refine ⟨bW, hM', pt, pt1, ?_, ?_, rfl, rfl, ?_⟩
    · rw [get_body_position_congr D t hstripW hparlook]
      exact hpt
    · rw [get_body_position_congr D (t - 1) hstripW hparlook]
      exact hpt1
    · exact (get_body_orientation_congr D t hstripW).symm

/-- `update(t)` is idempotent from any state whose schedule is
well-ordered. -/
theorem update_idempotent_of_schedOK (D : DecimalOps) (sim : Simulation)
    (t : ℚ) (sim' : Simulation) (hok : schedOK sim)
    (h : update D sim t = some sim') :
    update D sim' t = some sim' := by
  have hstrip : sim'.bodies.map SimulatedBody.stripState =
      sim.bodies.map SimulatedBody.stripState := by
    have h' : runSchedule D t (schedIds sim) sim = some sim' := h
    exact (runSchedule_strip h').1
  unfold update
  rw [schedIds_strip hstrip]
  exact runSchedule_noop D t sim' (schedIds sim) (update_last_write D t hok h)


/-- C1 (amended): `update` schedules only the strict descendants of
Static-dynamics bodies, so a scheduled Static body (one below another Static
body) ends with its runtime position equal to its fixed position, while every
unscheduled body — in particular every Static root — keeps its previous
stored record unchanged. -/
theorem claim_C1_static_position_amended (D : DecimalOps) (sim : Simulation)
    (t : ℚ) (sim' : Simulation) (h : update D sim t = some sim') :
    (∀ id ∈ schedIds sim, ∀ b, get_body_by_id sim' id = some b →
      ∀ sd, b.body.dynamics = .static sd → b.position = sd.position) ∧
    (∀ id, id ∉ schedIds sim →
      get_body_by_id sim' id = get_body_by_id sim id) := by
  constructor
  · intro id hid b hbfound sd hsd
    rcases mem_split_last hid with ⟨l1, l2, hsplit, hout⟩
    unfold update at h
    rw [hsplit] at h
    rcases runSchedule_append h with ⟨T1, h1, h2⟩
    unfold runSchedule at h2
    cases hstep : updStep D t T1 id with
    | none => rw [hstep] at h2; exact absurd h2 (by simp)
    | some T2 =>
      rw [hstep] at h2
      rcases updStep_char hstep with ⟨b0, pt, pt1, hb0, hpt, hpt1, hT2⟩
      have hMT2 : get_body_by_id T2 id =
          some { b0 with position := pt, velocity := DecimalVector3d.sub pt pt1, orientation := get_body_orientation D t b0 } := by
        rw [hT2]
        exact find_writeList_eq id pt _ _ T1.bodies b0 hb0
      have hM' : get_body_by_id sim' id =
          some { b0 with position := pt, velocity := DecimalVector3d.sub pt pt1, orientation := get_body_orientation D t b0 } := by
        rw [runSchedule_find_notin h2 hout]
        exact hMT2
      rw [hbfound] at hM'
      have hbeq : b = { b0 with position := pt, velocity := DecimalVector3d.sub pt pt1, orientation := get_body_orientation D t b0 } :=
        Option.some.inj hM'
      have hdyn0 : b0.body.dynamics = .static sd := by
        have : b.body = b0.body := by rw [hbeq]
        rw [← this]
        exact hsd
      have hptv : pt = sd.position := by
        unfold get_body_position at hpt
        rw [hdyn0] at hpt
        exact (Option.some.inj hpt).symm
      rw [hbeq]
      exact hptv
  · intro id hid
    unfold update at h
    exact runSchedule_find_notin h hid

/-- Witness for the amended C1 on the concrete three-body simulation: body 0
(the static sun) is unscheduled and untouched; the schedule is `[1, 2]`. -/
theorem claim_C1_static_position_amended_witness :
    update testOps testSim 5 = some testSim1 ∧ schedIds testSim = [1, 2] ∧
    (∀ id ∈ schedIds testSim, ∀ b, get_body_by_id testSim1 id = some b →
      ∀ sd, b.body.dynamics = .static sd → b.position = sd.position) ∧
    (∀ id, id ∉ schedIds testSim →
      get_body_by_id testSim1 id = get_body_by_id testSim id) :=
  ⟨by with_unfolding_all decide, by with_unfolding_all decide,
    claim_C1_static_position_amended testOps testSim 5 testSim1
      (by with_unfolding_all decide)⟩

/-- C1 counterexample: in a simulation holding one Static body with nonzero
fixed position, `update` schedules nothing (a Static root is not in its own
down-hierarchy), so the body's runtime position stays zero instead of its
fixed position — refuting the claim that after `update(t)` every Static body
has its runtime position equal to its fixed position. -/
theorem claim_C1_static_position_counterexample :
    update testOps cexSim1 0 = some cexSim1 ∧
    cexSim1.bodies.map (fun b => b.body.dynamics) =
      [BodyDynamics.static ⟨⟨1, 2, 3⟩⟩] ∧
    cexSim1.bodies.map SimulatedBody.position = [DecimalVector3d.zero] ∧
    DecimalVector3d.zero ≠ (⟨1, 2, 3⟩ : DecimalVector3d) := by
  refine ⟨?_, ?_, ?_, ?_⟩ <;> with_unfolding_all decide

mutual

/-- `add_hierarchy` appends exactly the flattened block of the registered
tree and advances the counter by the tree's size. -/
theorem add_hierarchy_eq_flatten (b : Body) :
    ∀ (sim : Simulation) (p : Option ℤ),
      add_hierarchy sim b p =
        (⟨sim.bodies ++ flattenBody sim.id_counter p b,
          sim.id_counter + (Body.size b : ℤ)⟩, sim.id_counter) :=
  match b with
  | .mk nm dyn ms sats ax rp => fun sim p => by
    simp only [add_hierarchy]
    rw [add_hierarchy_list_eq_flatten sats ⟨sim.bodies, sim.id_counter + 1⟩
      sim.id_counter]
    simp only [flattenBody]
    simp only [Prod.mk.injEq, Simulation.mk.injEq, Body.satellites]
    refine ⟨⟨by rw [List.append_assoc], ?_⟩, trivial⟩
    rw [Body.size]
    push_cast
    ring

/-- The satellite loop of `add_hierarchy` appends the flattened sibling
blocks and returns their root ids. -/
theorem add_hierarchy_list_eq_flatten (bs : List Body) :
    ∀ (sim : Simulation) (pid : ℤ),
      add_hierarchy_list sim bs pid =
        (⟨sim.bodies ++ (flattenList sim.id_counter pid bs).1,
          sim.id_counter + (Body.sizeList bs : ℤ)⟩,
         (flattenList sim.id_counter pid bs).2) :=
  match bs with
  | [] => fun sim pid => by
    simp only [add_hierarchy_list, flattenList]
    simp [Body.sizeList]
  | b :: rest => fun sim pid => by
    simp only [add_hierarchy_list]
    rw [add_hierarchy_eq_flatten b sim (some pid)]
    rw [add_hierarchy_list_eq_flatten rest
      ⟨sim.bodies ++ flattenBody sim.id_counter (some pid) b,
        sim.id_counter + (Body.size b : ℤ)⟩ pid]
    simp only [flattenList]
    simp only [Prod.mk.injEq, Simulation.mk.injEq]
    refine ⟨⟨by rw [List.append_assoc], ?_⟩, trivial⟩
    rw [Body.sizeList]
    push_cast
    ring

end

/-- Every `Body` tree holds at least its root. -/
theorem Body.size_pos (b : Body) : 1 ≤ Body.size b := by
  cases b with
  | mk nm dyn ms sats ax rp =>
    rw [Body.size]
    omega

mutual

/-- A flattened tree block has exactly the tree's size. -/
theorem flattenBody_length (b : Body) :
    ∀ (c : ℤ) (p : Option ℤ), (flattenBody c p b).length = Body.size b :=
  match b with
  | .mk nm dyn ms sats ax rp => fun c p => by
    simp only [flattenBody]
    rw [List.length_append, flattenList_length sats (c + 1) c, Body.size]
    simp [Body.satellites]
    omega

/-- Flattened sibling blocks have exactly the forest's size. -/
theorem flattenList_length (bs : List Body) :
    ∀ (c pid : ℤ), (flattenList c pid bs).1.length = Body.sizeList bs :=
  match bs with
  | [] => fun c pid => by simp [flattenList, Body.sizeList]
  | b :: rest => fun c pid => by
    simp only [flattenList]
    rw [List.length_append, flattenBody_length b c (some pid),
      flattenList_length rest (c + (Body.size b : ℤ)) pid, Body.sizeList]

end

mutual

/-- Every record of a flattened tree block carries an id in
`[counter, counter + size)`. -/
theorem flattenBody_id_bounds (b : Body) :
    ∀ (c : ℤ) (p : Option ℤ), ∀ e ∈ flattenBody c p b,
      c ≤ e.id ∧ e.id < c + (Body.size b : ℤ) :=
  match b with
  | .mk nm dyn ms sats ax rp => fun c p e he => by
    simp only [flattenBody] at he
    rcases List.mem_append.1 he with hin | hroot
    · have hb := flattenList_id_bounds sats (c + 1) c e hin
      rw [Body.size]
      push_cast
      constructor
      · omega
      · have := hb.2
        omega
    · rcases List.mem_singleton.1 hroot with rfl
      have h1 : (1 : ℤ) ≤ (Body.size (Body.mk nm dyn ms sats ax rp) : ℤ) := by
        exact_mod_cast Body.size_pos (Body.mk nm dyn ms sats ax rp)
      refine ⟨le_refl c, ?_⟩
      show c < c + (Body.size (Body.mk nm dyn ms sats ax rp) : ℤ)
      omega

/-- Every record of flattened sibling blocks carries an id in
`[counter, counter + total size)`. -/
theorem flattenList_id_bounds (bs : List Body) :
    ∀ (c pid : ℤ), ∀ e ∈ (flattenList c pid bs).1,
      c ≤ e.id ∧ e.id < c + (Body.sizeList bs : ℤ) :=
  match bs with
  | [] => fun c pid e he => by simp [flattenList] at he
  | b :: rest => fun c pid e he => by
    simp only [flattenList] at he
    rw [Body.sizeList]
    rcases List.mem_append.1 he with hin | hin
    · have hb := flattenBody_id_bounds b c (some pid) e hin
      push_cast
      constructor
      · exact hb.1
      · have := hb.2
        omega
    · have hb := flattenList_id_bounds rest (c + (Body.size b : ℤ)) pid e hin
      push_cast
      constructor
      · have := hb.1
        omega
      · have := hb.2
        omega

end

/-- The last record of a flattened tree block is the tree's own root record. -/
theorem flattenBody_root (b : Body) (c : ℤ) (p : Option ℤ) :
    ∃ root, (flattenBody c p b).getLast? = some root ∧ root.id = c ∧
      root.body = b ∧ root.parent = p ∧
      root.position = DecimalVector3d.zero ∧
      root.velocity = DecimalVector3d.zero ∧
      root.orientation = DecimalMatrix3d.identity ∧
      root.satellites = (flattenList (c + 1) c b.satellites).2 := by
  cases b with
  | mk nm dyn ms sats ax rp =>
    simp only [flattenBody]
    exact ⟨_, List.getLast?_concat _, rfl, rfl, rfl, rfl, rfl, rfl, rfl⟩

mutual

/-- Within a flattened tree block, every stored satellite id points to a
record appearing strictly earlier in the block (children precede parents:
post-order storage). -/
theorem flattenBody_backref (b : Body) :
    ∀ (c : ℤ) (p : Option ℤ) (u : List SimulatedBody) (e : SimulatedBody)
      (v : List SimulatedBody),
      flattenBody c p b = u ++ e :: v → ∀ sid ∈ e.satellites, ∃ y ∈ u, y.id = sid :=
  match b with
  | .mk nm dyn ms sats ax rp => fun c p u e v heq sid hsid => by
    simp only [flattenBody] at heq
    rcases List.append_eq_append_iff.1 heq with ⟨a, hu, h2⟩ | ⟨w, h1, h2⟩
    · cases a with
      | nil =>
        rw [List.nil_append] at h2
        cases h2
        rcases flattenList_retids sats (c + 1) c sid (by simpa using hsid) with
          ⟨y, hy, hyid⟩
        exact ⟨y, by rw [hu]; exact List.mem_append_left _ hy, hyid⟩
      | cons x a2 =>
        have hlen := congrArg List.length h2
        simp at hlen
    · cases w with
      | nil =>
        rw [List.append_nil] at h1
        cases h2
        rcases flattenList_retids sats (c + 1) c sid (by simpa using hsid) with
          ⟨y, hy, hyid⟩
        exact ⟨y, h1 ▸ hy, hyid⟩
      | cons x w2 =>
        rw [List.cons_append] at h2
        injection h2 with he hv
        subst he
        exact flattenList_backref sats (c + 1) c u e w2 h1 sid hsid

/-- Within flattened sibling blocks, every stored satellite id points to a
record appearing strictly earlier. -/
theorem flattenList_backref (bs : List Body) :
    ∀ (c pid : ℤ) (u : List SimulatedBody) (e : SimulatedBody)
      (v : List SimulatedBody),
      (flattenList c pid bs).1 = u ++ e :: v →
      ∀ sid ∈ e.satellites, ∃ y ∈ u, y.id = sid :=
  match bs with
  | [] => fun c pid u e v heq sid hsid => by
    simp only [flattenList] at heq
    exact absurd heq.symm (List.append_ne_nil_of_right_ne_nil u (by simp))
  | b :: rest => fun c pid u e v heq sid hsid => by
    simp only [flattenList] at heq
    rcases List.append_eq_append_iff.1 heq with ⟨a, hu, h2⟩ | ⟨w, h1, h2⟩
    · rcases flattenList_backref rest (c + (Body.size b : ℤ)) pid a e v h2
        sid hsid with ⟨y, hy, hyid⟩
      exact ⟨y, by rw [hu]; exact List.mem_append_right _ hy, hyid⟩
    · cases w with
      | nil =>
        rw [List.append_nil] at h1
        rw [List.nil_append] at h2
        rcases flattenList_backref rest (c + (Body.size b : ℤ)) pid [] e v
          h2.symm sid hsid with ⟨y, hy, _⟩
        exact absurd hy (by simp)
      | cons x w2 =>
        rw [List.cons_append] at h2
        injection h2 with he hv
        subst he
        exact flattenBody_backref b c (some pid) u e w2 h1 sid hsid

/-- Every id returned by the sibling loop is the id of a record in its own
blocks. -/
theorem flattenList_retids (bs : List Body) :
    ∀ (c pid : ℤ), ∀ sid ∈ (flattenList c pid bs).2,
      ∃ y ∈ (flattenList c pid bs).1, y.id = sid :=
  match bs with
  | [] => fun c pid sid hsid => by simp [flattenList] at hsid
  | b :: rest => fun c pid sid hsid => by
    simp only [flattenList] at hsid ⊢
    rcases List.mem_cons.1 hsid with heq | hin
    · subst heq
      rcases flattenBody_root b sid (some pid) with ⟨root, hlast, hid, _⟩
      exact ⟨root, List.mem_append_left _ (List.mem_of_mem_getLast? hlast), hid⟩
    · rcases flattenList_retids rest (c + (Body.size b : ℤ)) pid sid hin with
        ⟨y, hy, hyid⟩
      exact ⟨y, List.mem_append_right _ hy, hyid⟩

end

mutual

/-- The first record of a flattened tree block is a leaf (its stored
satellite list is empty). -/
theorem flattenBody_head (b : Body) :
    ∀ (c : ℤ) (p : Option ℤ), ∃ first, (flattenBody c p b).head? = some first ∧
      first.satellites = [] :=
  match b with
  | .mk nm dyn ms sats ax rp => fun c p => by
    cases hs : sats with
    | nil =>
      subst hs
      simp only [flattenBody, flattenList]
      exact ⟨_, rfl, rfl⟩
    | cons s srest =>
      rcases flattenList_head sats (c + 1) c (by rw [hs]; simp) with
        ⟨first, hhead, hsat⟩
      refine ⟨first, ?_, hsat⟩
      simp only [flattenBody]
      rcases List.head?_eq_some_iff.1 hhead with ⟨tail, htail⟩
      rw [hs] at htail
      rw [htail, List.cons_append]
      rfl

/-- The first record of nonempty flattened sibling blocks is a leaf. -/
theorem flattenList_head (bs : List Body) :
    ∀ (c pid : ℤ), bs ≠ [] → ∃ first, (flattenList c pid bs).1.head? = some first ∧
      first.satellites = [] :=
  match bs with
  | [] => fun c pid h => absurd rfl h
  | b :: rest => fun c pid _ => by
    rcases flattenBody_head b c pid with ⟨first, hhead, hsat⟩
    refine ⟨first, ?_, hsat⟩
    simp only [flattenList]
    rcases List.head?_eq_some_iff.1 hhead with ⟨tail, htail⟩
    rw [htail, List.cons_append]
    rfl

end

/-- A nonempty forest holds at least one body. -/
theorem Body.sizeList_pos (bs : List Body) (h : bs ≠ []) :
    1 ≤ Body.sizeList bs := by
  cases bs with
  | nil => exact absurd rfl h
  | cons b rest =>
    rw [Body.sizeList]
    have := Body.size_pos b
    omega

/-- C10: each `add_hierarchy` call appends a block in which every record
follows all records of its own satellite subtree (post-order): satellite ids
always point strictly earlier in the block, the registered tree's root is the
block's last element, and when the tree has satellites the block's first
element is a leaf and not the root. -/
theorem claim_C10_postorder_storage (sim : Simulation) (b : Body)
    (p : Option ℤ) :
    ∃ ns, (add_hierarchy sim b p).1.bodies = sim.bodies ++ ns ∧ ns ≠ [] ∧
      (∀ u e v, ns = u ++ e :: v → ∀ sid ∈ e.satellites, ∃ y ∈ u, y.id = sid) ∧
      (∃ root, ns.getLast? = some root ∧ root.body = b ∧
        root.id = (add_hierarchy sim b p).2) ∧
      (b.satellites ≠ [] → ∃ first, ns.head? = some first ∧
        first.satellites = [] ∧ first.id ≠ (add_hierarchy sim b p).2) := by
  refine ⟨flattenBody sim.id_counter p b, ?_, ?_, ?_, ?_, ?_⟩
  · rw [add_hierarchy_eq_flatten]
  · intro h0
    have hlen := flattenBody_length b sim.id_counter p
    rw [h0] at hlen
    have := Body.size_pos b
    simp at hlen
    omega
  · exact fun u e v heq => flattenBody_backref b sim.id_counter p u e v heq
  · rcases flattenBody_root b sim.id_counter p with ⟨root, h1, h2, h3, _⟩
    refine ⟨root, h1, h3, ?_⟩
    rw [add_hierarchy_eq_flatten]
    exact h2
  · intro hsats
    cases b with
    | mk nm dyn ms sats ax rp =>
      have hsats2 : sats ≠ [] := by simpa [Body.satellites] using hsats
      have hlen := flattenList_length sats (sim.id_counter + 1) sim.id_counter
      have hne1 : (flattenList (sim.id_counter + 1) sim.id_counter sats).1 ≠ [] := by
        intro h0
        rw [h0] at hlen
        have := Body.sizeList_pos sats hsats2
        simp at hlen
        omega
      rcases List.exists_cons_of_ne_nil hne1 with ⟨f0, ftail, hf0⟩
      have hhead : (flattenBody sim.id_counter p
          (Body.mk nm dyn ms sats ax rp)).head? = some f0 := by
        simp only [flattenBody]
        rw [hf0, List.cons_append]
        rfl
      have hmem : f0 ∈ (flattenList (sim.id_counter + 1) sim.id_counter sats).1 := by
        rw [hf0]
        exact List.mem_cons_self f0 ftail
      have hbound :=
        (flattenList_id_bounds sats (sim.id_counter + 1) sim.id_counter f0 hmem).1
      have hlf := flattenBody_head (Body.mk nm dyn ms sats ax rp) sim.id_counter p
      rcases hlf with ⟨first, hh, hs⟩
      rw [hhead] at hh
      cases hh
      refine ⟨f0, hhead, hs, ?_⟩
      rw [add_hierarchy_eq_flatten]
      show f0.id ≠ sim.id_counter
      omega

/-- Witness for C10 on the concrete two-level tree. -/
theorem claim_C10_postorder_storage_witness :
    earthB.satellites ≠ [] ∧
    (∃ ns, (add_hierarchy Simulation.new earthB none).1.bodies =
        Simulation.new.bodies ++ ns ∧ ns ≠ [] ∧
      (∀ u e v, ns = u ++ e :: v → ∀ sid ∈ e.satellites, ∃ y ∈ u, y.id = sid) ∧
      (∃ root, ns.getLast? = some root ∧ root.body = earthB ∧
        root.id = (add_hierarchy Simulation.new earthB none).2) ∧
      (earthB.satellites ≠ [] → ∃ first, ns.head? = some first ∧
        first.satellites = [] ∧
        first.id ≠ (add_hierarchy Simulation.new earthB none).2)) :=
  ⟨by with_unfolding_all decide,
    claim_C10_postorder_storage Simulation.new earthB none⟩

mutual

/-- The ids of a flattened tree block are exactly
`counter, …, counter + size − 1` in some order. -/
theorem flattenBody_ids_perm (b : Body) :
    ∀ (c : ℤ) (p : Option ℤ),
      ((flattenBody c p b).map (fun e => e.id)).Perm
        ((List.range (Body.size b)).map (fun i : ℕ => c + (i : ℤ))) :=
  match b with
  | .mk nm dyn ms sats ax rp => fun c p => by
    simp only [flattenBody]
    rw [List.map_append]
    have hsz : Body.size (Body.mk nm dyn ms sats ax rp) =
        Body.sizeList sats + 1 := by
      rw [Body.size]
      omega
    rw [hsz, List.range_succ_eq_map]
    have hrhs : (0 :: List.map Nat.succ (List.range (Body.sizeList sats))).map
        (fun i : ℕ => c + (i : ℤ)) =
        c :: (List.range (Body.sizeList sats)).map
          (fun i : ℕ => (c + 1) + (i : ℤ)) := by
      rw [List.map_cons, List.map_map]
      refine congrArg₂ List.cons (by simp) ?_
      refine List.map_congr_left ?_
      intro a _
      simp only [Function.comp, Nat.succ_eq_add_one]
      push_cast
      ring
    rw [hrhs]
    have hperm := flattenList_ids_perm sats (c + 1) c
    simp only [List.map_cons, List.map_nil]
    refine List.Perm.trans List.perm_append_comm ?_
    rw [List.singleton_append]
    exact List.Perm.cons _ hperm

/-- The ids of flattened sibling blocks are exactly
`counter, …, counter + total size − 1` in some order. -/
theorem flattenList_ids_perm (bs : List Body) :
    ∀ (c pid : ℤ),
      ((flattenList c pid bs).1.map (fun e => e.id)).Perm
        ((List.range (Body.sizeList bs)).map (fun i : ℕ => c + (i : ℤ))) :=
  match bs with
  | [] => fun c pid => by simp [flattenList, Body.sizeList]
  | b :: rest => fun c pid => by
    simp only [flattenList]
    rw [List.map_append, Body.sizeList, List.range_add, List.map_append]
    refine List.Perm.append (flattenBody_ids_perm b c (some pid)) ?_
    have hmap : (List.map (fun x : ℕ => Body.size b + x)
        (List.range (Body.sizeList rest))).map (fun i : ℕ => c + (i : ℤ)) =
        (List.range (Body.sizeList rest)).map
          (fun i : ℕ => (c + (Body.size b : ℤ)) + (i : ℤ)) := by
      rw [List.map_map]
      refine List.map_congr_left ?_
      intro a _
      simp only [Function.comp]
      push_cast
      ring
    rw [hmap]
    exact flattenList_ids_perm rest (c + (Body.size b : ℤ)) pid

end

mutual

/-- In a flattened tree block, every stored satellite id is strictly larger
than its owner's id (pre-order id assignment) and names a record of the same
block. -/
theorem flattenBody_sat (b : Body) :
    ∀ (c : ℤ) (p : Option ℤ), ∀ e ∈ flattenBody c p b, ∀ sid ∈ e.satellites,
      e.id < sid ∧ ∃ y ∈ flattenBody c p b, y.id = sid :=
  match b with
  | .mk nm dyn ms sats ax rp => fun c p e he sid hsid => by
    simp only [flattenBody] at he ⊢
    rcases List.mem_append.1 he with hin | hroot
    · rcases flattenList_sat sats (c + 1) c e hin sid hsid with ⟨hlt, y, hy, hyid⟩
      exact ⟨hlt, y, List.mem_append_left _ hy, hyid⟩
    · rcases List.mem_singleton.1 hroot with rfl
      have hsid2 : sid ∈ (flattenList (c + 1) c sats).2 := hsid
      rcases flattenList_retids sats (c + 1) c sid hsid2 with ⟨y, hy, hyid⟩
      have hb := flattenList_id_bounds sats (c + 1) c y hy
      refine ⟨?_, y, List.mem_append_left _ hy, hyid⟩
      show c < sid
      omega

/-- In flattened sibling blocks, every stored satellite id is strictly larger
than its owner's id and names a record of the same blocks. -/
theorem flattenList_sat (bs : List Body) :
    ∀ (c pid : ℤ), ∀ e ∈ (flattenList c pid bs).1, ∀ sid ∈ e.satellites,
      e.id < sid ∧ ∃ y ∈ (flattenList c pid bs).1, y.id = sid :=
  match bs with
  | [] => fun c pid e he => by simp [flattenList] at he
  | b :: rest => fun c pid e he sid hsid => by
    simp only [flattenList] at he ⊢
    rcases List.mem_append.1 he with hin | hin
    · rcases flattenBody_sat b c (some pid) e hin sid hsid with ⟨hlt, y, hy, hyid⟩
      exact ⟨hlt, y, List.mem_append_left _ hy, hyid⟩
    · rcases flattenList_sat rest (c + (Body.size b : ℤ)) pid e hin sid hsid with
        ⟨hlt, y, hy, hyid⟩
      exact ⟨hlt, y, List.mem_append_right _ hy, hyid⟩

end

mutual

/-- In a flattened tree block, every record's parent is either the block's
own parent argument or a record of the block. -/
theorem flattenBody_parent (b : Body) :
    ∀ (c : ℤ) (p : Option ℤ), ∀ e ∈ flattenBody c p b,
      e.parent = p ∨ ∃ y ∈ flattenBody c p b, e.parent = some y.id :=
  match b with
  | .mk nm dyn ms sats ax rp => fun c p e he => by
    simp only [flattenBody] at he ⊢
    rcases List.mem_append.1 he with hin | hroot
    · rcases flattenList_parent sats (c + 1) c e hin with hp | ⟨y, hy, hyid⟩
      · right
        refine ⟨{ id := c, body := Body.mk nm dyn ms sats ax rp, position := DecimalVector3d.zero, velocity := DecimalVector3d.zero, orientation := DecimalMatrix3d.identity, parent := p, satellites := (flattenList (c + 1) c sats).2 }, ?_, hp⟩
        exact List.mem_append_right _ (by simp)
      · exact Or.inr ⟨y, List.mem_append_left _ hy, hyid⟩
    · rcases List.mem_singleton.1 hroot with rfl
      exact Or.inl rfl

/-- In flattened sibling blocks, every record's parent is either the common
parent id or a record of the blocks. -/
theorem flattenList_parent (bs : List Body) :
    ∀ (c pid : ℤ), ∀ e ∈ (flattenList c pid bs).1,
      e.parent = some pid ∨ ∃ y ∈ (flattenList c pid bs).1, e.parent = some y.id :=
  match bs with
  | [] => fun c pid e he => by simp [flattenList] at he
  | b :: rest => fun c pid e he => by
    simp only [flattenList] at he ⊢
    rcases List.mem_append.1 he with hin | hin
    · rcases flattenBody_parent b c (some pid) e hin with hp | ⟨y, hy, hyid⟩
      · exact Or.inl hp
      · exact Or.inr ⟨y, List.mem_append_left _ hy, hyid⟩
    · rcases flattenList_parent rest (c + (Body.size b : ℤ)) pid e hin with
        hp | ⟨y, hy, hyid⟩
      · exact Or.inl hp
      · exact Or.inr ⟨y, List.mem_append_right _ hy, hyid⟩

end

/-- When every stored satellite id exceeds its owner's id, everything in a
down-resolution from ids above a base keeps ids above the base. -/
theorem down_ids_gt (sim : Simulation)
    (hGP : ∀ x ∈ sim.bodies, ∀ sid ∈ x.satellites, x.id < sid) :
    ∀ (fuel : ℕ) (ids : List ℤ) (base : ℤ), (∀ sid ∈ ids, base < sid) →
      ∀ d ∈ resolve_down_aux sim fuel ids, base < d.id := by
  intro fuel
  induction fuel with
  | zero =>
    intro ids base hids d hd
    simp [resolve_down_aux] at hd
  | succ f ihf =>
    intro ids
    induction ids with
    | nil =>
      intro base hids d hd
      simp [resolve_down_aux] at hd
    | cons sid rest ihl =>
      intro base hids d hd
      unfold resolve_down_aux at hd
      rcases List.mem_append.1 hd with hin | hin
      · cases hsat : get_body_by_id sim sid with
        | none => rw [hsat] at hin; cases hin
        | some sat =>
          rw [hsat] at hin
          rcases get_body_by_id_mem hsat with ⟨hmem, hid⟩
          rcases List.mem_cons.1 hin with rfl | hin2
          · rw [hid]
            exact hids sid (List.mem_cons_self sid rest)
          · have hbase : ∀ sid2 ∈ sat.satellites, base < sid2 := by
              intro sid2 hsid2
              have h1 := hGP sat hmem sid2 hsid2
              have h2 := hids sid (List.mem_cons_self sid rest)
              rw [hid] at h1
              omega
            exact ihf sat.satellites base hbase d hin2
      · exact ihl base (fun s hs => hids s (List.mem_cons_of_mem sid hs)) d hin

/-- Invariant of every simulation reachable through `add_hierarchy`: the
counter equals the body count, stored ids are a permutation of `0..n−1`,
satellite ids exceed their owner's id and name stored bodies, and parent ids
name stored bodies. -/
theorem built_invariant {sim : Simulation} (h : Built sim) :
    sim.id_counter = (sim.bodies.length : ℤ) ∧
    (sim.bodies.map (fun e => e.id)).Perm
      ((List.range sim.bodies.length).map (fun i : ℕ => (i : ℤ))) ∧
    (∀ e ∈ sim.bodies, ∀ sid ∈ e.satellites,
      e.id < sid ∧ ∃ y ∈ sim.bodies, y.id = sid) ∧
    (∀ e ∈ sim.bodies, ∀ pid, e.parent = some pid →
      ∃ y ∈ sim.bodies, y.id = pid) := by
  induction h with
  | base =>
    refine ⟨rfl, by simp [Simulation.new], ?_, ?_⟩
    · intro e he
      simp [Simulation.new] at he
    · intro e he
      simp [Simulation.new] at he
  | step sim b p hbuilt hvalid ih =>
    rcases ih with ⟨ihc, ihperm, ihsat, ihpar⟩
    rw [add_hierarchy_eq_flatten]
    have hflen := flattenBody_length b sim.id_counter p
    refine ⟨?_, ?_, ?_, ?_⟩
    · show sim.id_counter + (Body.size b : ℤ) =
        ((sim.bodies ++ flattenBody sim.id_counter p b).length : ℤ)
      rw [List.length_append, hflen, ihc]
      push_cast
      ring
    · show ((sim.bodies ++ flattenBody sim.id_counter p b).map
          (fun e => e.id)).Perm _
      rw [List.map_append, List.length_append, hflen, List.range_add,
        List.map_append]
      refine List.Perm.append ihperm ?_
      have hperm := flattenBody_ids_perm b sim.id_counter p
      have hmap : (List.map (fun x : ℕ => sim.bodies.length + x)
          (List.range (Body.size b))).map (fun i : ℕ => (i : ℤ)) =
          (List.range (Body.size b)).map
            (fun i : ℕ => sim.id_counter + (i : ℤ)) := by
        rw [List.map_map]
        refine List.map_congr_left ?_
        intro a _
        simp only [Function.comp]
        rw [ihc]
        push_cast
        ring
      rw [hmap]
      exact hperm
    · intro e he sid hsid
      rcases List.mem_append.1 he with hin | hin
      · rcases ihsat e hin sid hsid with ⟨hlt, y, hy, hyid⟩
        exact ⟨hlt, y, List.mem_append_left _ hy, hyid⟩
      · rcases flattenBody_sat b sim.id_counter p e hin sid hsid with
          ⟨hlt, y, hy, hyid⟩
        exact ⟨hlt, y, List.mem_append_right _ hy, hyid⟩
    · intro e he pid hpid
      rcases List.mem_append.1 he with hin | hin
      · rcases ihpar e hin pid hpid with ⟨y, hy, hyid⟩
        exact ⟨y, List.mem_append_left _ hy, hyid⟩
      · rcases flattenBody_parent b sim.id_counter p e hin with hp | ⟨y, hy, hyid⟩
        · rcases hvalid pid (by rw [← hp, hpid]) with ⟨y, hy, hyid⟩
          exact ⟨y, List.mem_append_left _ hy, hyid⟩
        · rw [hpid] at hyid
          exact ⟨y, List.mem_append_right _ hy, (Option.some.inj hyid).symm⟩

/-- C5 counterexample: a single `add_hierarchy` call on a fresh simulation
may pass a parent argument naming no body; the call stores it anyway, so the
stored parent id 5 refers to no stored body — refuting the claim for
arbitrary call sequences. -/
theorem claim_C5_ids_counterexample :
    cexSim5 = (add_hierarchy Simulation.new cexLeafBody (some 5)).1 ∧
    cexSim5.bodies.map (fun e => e.parent) = [some 5] ∧
    get_body_by_id cexSim5 5 = none := by
  refine ⟨rfl, ?_, ?_⟩ <;> with_unfolding_all decide

/-- C5 (amended): after any sequence of `add_hierarchy` calls on a fresh
simulation in which every call's parent argument is `none` or an
already-stored id, the stored ids are exactly `0..n−1` (dense, unique), each
body's id is strictly smaller than every id in its satellite subtree
(pre-order assignment), and every stored parent or satellite id refers to a
stored body. -/
theorem claim_C5_ids_amended (sim : Simulation) (h : Built sim) :
    (sim.bodies.map (fun e => e.id)).Perm
      ((List.range sim.bodies.length).map (fun i : ℕ => (i : ℤ))) ∧
    (∀ e ∈ sim.bodies, ∀ d ∈ resolve_hierarchy_down sim e, e.id < d.id) ∧
    (∀ e ∈ sim.bodies, (∀ sid ∈ e.satellites, ∃ y ∈ sim.bodies, y.id = sid) ∧
      (∀ pid, e.parent = some pid → ∃ y ∈ sim.bodies, y.id = pid)) := by
  rcases built_invariant h with ⟨_, hperm, hsat, hpar⟩
  refine ⟨hperm, ?_, ?_⟩
  · intro e he d hd
    exact down_ids_gt sim (fun x hx sid hs => (hsat x hx sid hs).1)
      sim.bodies.length e.satellites e.id
      (fun sid hs => (hsat e he sid hs).1) d hd
  · exact fun e he => ⟨fun sid hs => (hsat e he sid hs).2, hpar e he⟩

/-- Witness for the amended C5 on the concrete three-body simulation. -/
theorem claim_C5_ids_amended_witness :
    (testSim.bodies.map (fun e => e.id)).Perm
      ((List.range testSim.bodies.length).map (fun i : ℕ => (i : ℤ))) ∧
    (∀ e ∈ testSim.bodies, ∀ d ∈ resolve_hierarchy_down testSim e,
      e.id < d.id) ∧
    (∀ e ∈ testSim.bodies,
      (∀ sid ∈ e.satellites, ∃ y ∈ testSim.bodies, y.id = sid) ∧
      (∀ pid, e.parent = some pid → ∃ y ∈ testSim.bodies, y.id = pid)) :=
  claim_C5_ids_amended testSim
    (Built.step Simulation.new sunB none Built.base (fun pid hp => by cases hp))

/-- Values of a pre-order descendant-id list lie in the forest's id range. -/
theorem schedDescList_bounds : ∀ (bs : List Body) (c : ℤ),
    ∀ x ∈ schedDescList c bs, c ≤ x ∧ x < c + (Body.sizeList bs : ℤ)
  | [] => fun c x hx => by simp [schedDescList] at hx
  | .mk nm dyn ms sats ax rp :: rest => fun c x hx => by
    simp only [schedDescList] at hx
    have hsz : Body.sizeList (Body.mk nm dyn ms sats ax rp :: rest) =
        1 + Body.sizeList sats + Body.sizeList rest := by
      rw [Body.sizeList, Body.size]
    rcases List.mem_cons.1 hx with rfl | hx2
    · refine ⟨le_refl x, ?_⟩
      rw [hsz]
      push_cast
      omega
    · rcases List.mem_append.1 hx2 with hin | hin
      · have h := schedDescList_bounds sats (c + 1) x hin
        rw [hsz]
        push_cast
        push_cast at h
        omega
      · have h := schedDescList_bounds rest (c + 1 + (Body.sizeList sats : ℤ)) x hin
        rw [hsz]
        push_cast
        push_cast at h
        omega

/-- A pre-order descendant-id list is strictly increasing (ids are assigned
in pre-order). -/
theorem schedDescList_sorted : ∀ (bs : List Body) (c : ℤ),
    (schedDescList c bs).Sorted (fun a b : ℤ => a < b)
  | [] => fun c => by simp [schedDescList]
  | .mk nm dyn ms sats ax rp :: rest => fun c => by
    simp only [schedDescList]
    rw [List.sorted_cons]
    constructor
    · intro x hx
      rcases List.mem_append.1 hx with hin | hin
      · have h := schedDescList_bounds sats (c + 1) x hin
        omega
      · have h := schedDescList_bounds rest (c + 1 + (Body.sizeList sats : ℤ)) x hin
        omega
    · rw [List.Sorted, List.pairwise_append]
      refine ⟨schedDescList_sorted sats (c + 1),
        schedDescList_sorted rest (c + 1 + (Body.sizeList sats : ℤ)), ?_⟩
      intro a ha b hb
      have h1 := schedDescList_bounds sats (c + 1) a ha
      have h2 := schedDescList_bounds rest (c + 1 + (Body.sizeList sats : ℤ)) b hb
      omega

mutual

/-- Schedule entries contributed by one tree lie strictly inside its id
range (the root id itself is never scheduled by its own tree). -/
theorem blockSchedB_bounds : ∀ (b : Body) (c : ℤ),
    ∀ x ∈ blockSchedB c b, c < x ∧ x < c + (Body.size b : ℤ)
  | .mk nm dyn ms sats ax rp => fun c x hx => by
    simp only [blockSchedB] at hx
    have hsz : Body.size (Body.mk nm dyn ms sats ax rp) =
        1 + Body.sizeList sats := by
      rw [Body.size]
    rcases List.mem_append.1 hx with hin | hin
    · have h := blockSchedList_bounds sats (c + 1) x hin
      rw [hsz]
      push_cast
      push_cast at h
      omega
    · have hin2 : x ∈ schedDescList (c + 1) sats := by
        cases dyn with
        | static sd => simpa using hin
        | orbiting od => simp at hin
      have h := schedDescList_bounds sats (c + 1) x hin2
      rw [hsz]
      push_cast
      push_cast at h
      omega

/-- Schedule entries contributed by a forest lie in the forest's id range. -/
theorem blockSchedList_bounds : ∀ (bs : List Body) (c : ℤ),
    ∀ x ∈ blockSchedList c bs, c ≤ x ∧ x < c + (Body.sizeList bs : ℤ)
  | [] => fun c x hx => by simp [blockSchedList] at hx
  | b :: rest => fun c x hx => by
    simp only [blockSchedList] at hx
    have hsz : Body.sizeList (b :: rest) = Body.size b + Body.sizeList rest := by
      rw [Body.sizeList]
    rcases List.mem_append.1 hx with hin | hin
    · have h := blockSchedB_bounds b c x hin
      rw [hsz]
      push_cast
      push_cast at h
      omega
    · have h := blockSchedList_bounds rest (c + (Body.size b : ℤ)) x hin
      rw [hsz]
      push_cast
      push_cast at h
      omega

end

mutual

/-- Every record of flattened sibling blocks has its id in the forest's
pre-order descendant-id list. -/
theorem mem_schedDesc_of_flatten : ∀ (bs : List Body) (c pid : ℤ),
    ∀ x ∈ (flattenList c pid bs).1, x.id ∈ schedDescList c bs
  | [] => fun c pid x hx => by simp [flattenList] at hx
  | b :: rest => fun c pid x hx => by
    simp only [flattenList] at hx
    cases b with
    | mk nm dyn ms sats ax rp =>
      simp only [schedDescList]
      rcases List.mem_append.1 hx with hin | hin
      · rcases mem_schedDesc_of_flatten_body (Body.mk nm dyn ms sats ax rp)
          c (some pid) x hin with hid | hid
        · rw [hid]
          exact List.mem_cons_self _ _
        · refine List.mem_cons_of_mem _ (List.mem_append_left _ ?_)
          simpa [Body.satellites] using hid
      · have h := mem_schedDesc_of_flatten rest
          (c + (Body.size (Body.mk nm dyn ms sats ax rp) : ℤ)) pid x hin
        have hsz : c + (Body.size (Body.mk nm dyn ms sats ax rp) : ℤ) =
            c + 1 + (Body.sizeList sats : ℤ) := by
          rw [Body.size]
          push_cast
          ring
        rw [hsz] at h
        exact List.mem_cons_of_mem _ (List.mem_append_right _ h)

/-- Every record of a flattened tree block is the root or has its id in the
tree's descendant-id list. -/
theorem mem_schedDesc_of_flatten_body : ∀ (b : Body) (c : ℤ) (p : Option ℤ),
    ∀ x ∈ flattenBody c p b,
      x.id = c ∨ x.id ∈ schedDescList (c + 1) b.satellites
  | .mk nm dyn ms sats ax rp => fun c p x hx => by
    simp only [flattenBody] at hx
    rcases List.mem_append.1 hx with hin | hroot
    · right
      have h := mem_schedDesc_of_flatten sats (c + 1) c x hin
      simpa [Body.satellites] using h
    · left
      rcases List.mem_singleton.1 hroot with rfl
      rfl

end

mutual

/-- In a flattened tree block, the parent of every non-root record is an id
in `[c, record.id)`: parents get strictly smaller ids than their children. -/
theorem flattenBody_parent_lt : ∀ (b : Body) (c : ℤ) (p : Option ℤ),
    ∀ x ∈ flattenBody c p b, ∀ q, x.parent = some q →
      (x.id = c ∧ some q = p) ∨ (c ≤ q ∧ q < x.id)
  | .mk nm dyn ms sats ax rp => fun c p x hx q hq => by
    simp only [flattenBody] at hx
    rcases List.mem_append.1 hx with hin | hroot
    · right
      have hb := flattenList_id_bounds sats (c + 1) c x hin
      rcases flattenList_parent_lt sats (c + 1) c x hin q hq with heq | hlt
      · constructor <;> omega
      · constructor
        · have := hlt.1
          omega
        · exact hlt.2
    · rcases List.mem_singleton.1 hroot with rfl
      exact Or.inl ⟨rfl, hq ▸ rfl⟩

/-- In flattened sibling blocks with common parent id `pid`, every record's
parent is `pid` or an id in `[c, record.id)`. -/
theorem flattenList_parent_lt : ∀ (bs : List Body) (c pid : ℤ),
    ∀ x ∈ (flattenList c pid bs).1, ∀ q, x.parent = some q →
      q = pid ∨ (c ≤ q ∧ q < x.id)
  | [] => fun c pid x hx => by simp [flattenList] at hx
  | b :: rest => fun c pid x hx q hq => by
    simp only [flattenList] at hx
    rcases List.mem_append.1 hx with hin | hin
    · rcases flattenBody_parent_lt b c (some pid) x hin q hq with ⟨_, hqp⟩ | hlt
      · exact Or.inl (Option.some.inj hqp)
      · exact Or.inr hlt
    · rcases flattenList_parent_lt rest (c + (Body.size b : ℤ)) pid x hin q hq with
        hp | hlt
      · exact Or.inl hp
      · refine Or.inr ⟨?_, hlt.2⟩
        have h1 := hlt.1
        have h2 : (0 : ℤ) ≤ (Body.size b : ℤ) := by positivity
        omega

end

/-- If the last occurrence of `x` in `A ++ B` is a member of `B`, its suffix
is a suffix of `B`. -/
theorem last_split_in_right {α : Type} [DecidableEq α]
    {A B l1 l2 : List α} {x : α} (h : A ++ B = l1 ++ x :: l2)
    (hx2 : x ∉ l2) (hxB : x ∈ B) : ∃ u, B = u ++ x :: l2 := by
  rcases List.append_eq_append_iff.1 h with ⟨a, _, h2⟩ | ⟨w, _, h2⟩
  · exact ⟨a, h2⟩
  · cases w with
    | nil =>
      rw [List.nil_append] at h2
      exact ⟨[], h2.symm⟩
    | cons y w2 =>
      rw [List.cons_append] at h2
      injection h2 with he hv
      subst he
      exact absurd (hv ▸ List.mem_append_right w2 hxB) hx2

/-- With duplicate-free ids, looking up a stored body's id finds that body. -/
theorem find_of_nodup_mem :
    ∀ (l : List SimulatedBody) (y : SimulatedBody),
      (l.map (fun e => e.id)).Nodup → y ∈ l →
      l.find? (fun b => b.id = y.id) = some y := by
  intro l
  induction l with
  | nil => intro y _ hy; cases hy
  | cons h rest ih =>
    intro y hnd hy
    rw [List.map_cons, List.nodup_cons] at hnd
    rcases List.mem_cons.1 hy with rfl | hy2
    · exact List.find?_cons_of_pos _ (by simp)
    · have hne : ¬ (h.id = y.id) := by
        intro hc
        exact hnd.1 (hc ▸ List.mem_map_of_mem (fun e => e.id) hy2)
      rw [List.find?_cons_of_neg _ (by simpa using hne)]
      exact ih y hnd.2 hy2

/-- A successful `find?` splits the list at the found element, with the
predicate failing on the prefix. -/
theorem find_split {α : Type} {p : α → Bool} :
    ∀ {l : List α} {a : α}, l.find? p = some a →
      ∃ u v, l = u ++ a :: v ∧ ∀ b ∈ u, ¬ p b = true := by
  intro l
  induction l with
  | nil => intro a h; cases h
  | cons h rest ih =>
    intro a hf
    by_cases hp : p h = true
    · rw [List.find?_cons_of_pos _ hp] at hf
      cases hf
      exact ⟨[], rest, rfl, by simp⟩
    · rw [List.find?_cons_of_neg _ hp] at hf
      rcases ih hf with ⟨u, v, heq, hfail⟩
      refine ⟨h :: u, v, by rw [heq]; rfl, ?_⟩
      intro b hb
      rcases List.mem_cons.1 hb with rfl | hb2
      · exact hp
      · exact hfail b hb2

/-- A split of one store transfers along descriptor-part equality. -/
theorem strip_split_correspond :
    ∀ (u2 : List SimulatedBody) (l1 l2 : List SimulatedBody),
      l1.map SimulatedBody.stripState = l2.map SimulatedBody.stripState →
      ∀ (e2 : SimulatedBody) (v2 : List SimulatedBody), l2 = u2 ++ e2 :: v2 →
      ∃ u1 e1 v1, l1 = u1 ++ e1 :: v1 ∧
        u1.map SimulatedBody.stripState = u2.map SimulatedBody.stripState ∧
        e1.stripState = e2.stripState := by
  intro u2
  induction u2 with
  | nil =>
    intro l1 l2 hmap e2 v2 heq
    subst heq
    cases l1 with
    | nil => cases hmap
    | cons e1 v1 =>
      rw [List.nil_append, List.map_cons, List.map_cons] at hmap
      injection hmap with h1 _
      exact ⟨[], e1, v1, rfl, rfl, h1⟩
  | cons a2 u2' ih =>
    intro l1 l2 hmap e2 v2 heq
    subst heq
    cases l1 with
    | nil => cases hmap
    | cons a1 l1' =>
      rw [List.cons_append, List.map_cons, List.map_cons] at hmap
      injection hmap with h1 h2
      rcases ih l1' (u2' ++ e2 :: v2) h2 e2 v2 rfl with ⟨u1, e1, v1, heq1, hu, he⟩
      exact ⟨a1 :: u1, e1, v1, by rw [heq1]; rfl,
        by rw [List.map_cons, List.map_cons, hu, h1], he⟩

/-- Membership transfers along descriptor-part equality. -/
theorem strip_mem_correspond :
    ∀ (l1 l2 : List SimulatedBody),
      l1.map SimulatedBody.stripState = l2.map SimulatedBody.stripState →
      ∀ y1 ∈ l1, ∃ y2 ∈ l2, y1.stripState = y2.stripState := by
  intro l1
  induction l1 with
  | nil => intro l2 _ y1 hy; cases hy
  | cons a1 l1' ih =>
    intro l2 hmap y1 hy
    cases l2 with
    | nil => cases hmap
    | cons a2 l2' =>
      rw [List.map_cons, List.map_cons] at hmap
      injection hmap with h1 h2
      rcases List.mem_cons.1 hy with rfl | hy2
      · exact ⟨a2, List.mem_cons_self _ _, h1⟩
      · rcases ih l2' h2 y1 hy2 with ⟨y2, hy2m, he⟩
        exact ⟨y2, List.mem_cons_of_mem _ hy2m, he⟩

/-- The last-occurrence parent check depends only on descriptor parts. -/
theorem lastOccCondB_strip {sim1 sim2 : Simulation}
    (h : sim1.bodies.map SimulatedBody.stripState =
      sim2.bodies.map SimulatedBody.stripState) (id : ℤ) (rest : List ℤ) :
    lastOccCondB sim1 id rest = lastOccCondB sim2 id rest := by
  unfold lastOccCondB
  have hfind := find_strip_congr id sim1.bodies sim2.bodies h
  rw [← get_body_by_id_def, ← get_body_by_id_def] at hfind
  cases h1 : get_body_by_id sim1 id with
  | none =>
    cases h2 : get_body_by_id sim2 id with
    | none => rfl
    | some c => rw [h1, h2] at hfind; cases hfind
  | some c1 =>
    cases h2 : get_body_by_id sim2 id with
    | none => rw [h1, h2] at hfind; cases hfind
    | some c2 =>
      rw [h1, h2] at hfind
      have hstrip : c1.stripState = c2.stripState := by simpa using hfind
      rcases stripState_parts hstrip with ⟨_, hbody, hparent, _⟩
      show (match c1.body.dynamics, c1.parent with
            | BodyDynamics.orbiting _, some pid =>
              decide (pid ≠ id) && decide (pid ∉ rest)
            | _, _ => true) =
          (match c2.body.dynamics, c2.parent with
            | BodyDynamics.orbiting _, some pid =>
              decide (pid ≠ id) && decide (pid ∉ rest)
            | _, _ => true)
      rw [hbody, hparent]

/-- The schedule well-ordering check depends only on descriptor parts. -/
theorem schedOKAuxB_strip {sim1 sim2 : Simulation}
    (h : sim1.bodies.map SimulatedBody.stripState =
      sim2.bodies.map SimulatedBody.stripState) :
    ∀ l : List ℤ, schedOKAuxB sim1 l = schedOKAuxB sim2 l := by
  intro l
  induction l with
  | nil => rfl
  | cons id rest ih =>
    unfold schedOKAuxB
    rw [ih, lastOccCondB_strip h id rest]

/-- A successful `update` preserves the schedule well-ordering. -/
theorem schedOK_update_preserved {D : DecimalOps} {sim sim' : Simulation}
    {t : ℚ} (h : update D sim t = some sim') (hok : schedOK sim) :
    schedOK sim' := by
  have hstrip : sim'.bodies.map SimulatedBody.stripState =
      sim.bodies.map SimulatedBody.stripState := (runSchedule_strip h).1
  unfold schedOK at hok ⊢
  rw [schedIds_strip hstrip, schedOKAuxB_strip hstrip]
  exact hok

/-- The structural store invariant depends only on descriptor parts and the
counter. -/
theorem simInv_strip {sim1 sim2 : Simulation}
    (h : sim1.bodies.map SimulatedBody.stripState =
      sim2.bodies.map SimulatedBody.stripState)
    (hc : sim1.id_counter = sim2.id_counter) (hinv : simInv sim1) :
    simInv sim2 := by
  rcases hinv with ⟨h1, h2, h3⟩
  refine ⟨?_, ?_, ?_⟩
  · intro e he
    rcases strip_mem_correspond sim2.bodies sim1.bodies h.symm e he with
      ⟨e1, he1, hee⟩
    rw [(stripState_parts hee).1, ← hc]
    exact h1 e1 he1
  · have : sim1.bodies.map (fun e => e.id) = sim2.bodies.map (fun e => e.id) := by
      have := congrArg (List.map Prod.fst) h
      simpa [Function.comp, SimulatedBody.stripState] using this
    rw [← this]
    exact h2
  · intro u2 e2 v2 heq sid hsid
    rcases strip_split_correspond u2 sim1.bodies sim2.bodies h e2 v2 heq with
      ⟨u1, e1, v1, heq1, hu, he⟩
    rcases stripState_parts he with ⟨_, _, _, hsats⟩
    rcases h3 u1 e1 v1 heq1 sid (by rw [hsats]; exact hsid) with ⟨y, hy, hyid⟩
    rcases strip_mem_correspond u1 u2 hu y hy with ⟨y2, hy2, hey⟩
    exact ⟨y2, hy2, by rw [← (stripState_parts hey).1]; exact hyid⟩

/-- The schedule well-ordering check, characterized by last-occurrence
splits. -/
theorem schedOKAuxB_iff_splits (sim : Simulation) :
    ∀ l : List ℤ, schedOKAuxB sim l = true ↔
      ∀ l1 id l2, l = l1 ++ id :: l2 → id ∉ l2 →
        lastOccCondB sim id l2 = true := by
  intro l
  induction l with
  | nil =>
    constructor
    · intro _ l1 id l2 h _
      exact absurd h.symm (List.append_ne_nil_of_right_ne_nil l1 (by simp))
    · intro _
      rfl
  | cons a rest ih =>
    unfold schedOKAuxB
    rw [Bool.and_eq_true]
    constructor
    · rintro ⟨hhead, htail⟩ l1 id l2 heq hout
      cases l1 with
      | nil =>
        rw [List.nil_append] at heq
        injection heq with h1 h2
        subst h1
        subst h2
        rw [if_neg hout] at hhead
        exact hhead
      | cons b l1t =>
        rw [List.cons_append] at heq
        injection heq with h1 h2
        exact (ih.1 htail) l1t id l2 h2 hout
    · intro hall
      constructor
      · by_cases hmem : a ∈ rest
        · rw [if_pos hmem]
        · rw [if_neg hmem]
          exact hall [] a rest rfl hmem
      · exact ih.2 (fun l1 id l2 heq hout =>
          hall (a :: l1) id l2 (by rw [heq]; rfl) hout)

/-- Down-resolution of an empty id list is empty at any fuel. -/
theorem downAux_nil (sim : Simulation) : ∀ fuel : ℕ,
    resolve_down_aux sim fuel [] = []
  | 0 => by simp [resolve_down_aux]
  | _ + 1 => by simp [resolve_down_aux]

/-- A match in the prefix gives a first match with a strictly shorter
prefix. -/
theorem resolve_below_of_mem_prefix (u0 rest : List SimulatedBody) (sid : ℤ)
    (h : ∃ y ∈ u0, y.id = sid) :
    ∃ u sat v, u0 ++ rest = u ++ sat :: v ∧
      (u0 ++ rest).find? (fun b => b.id = sid) = some sat ∧
      u.length < u0.length := by
  have hsome : (u0.find? (fun b => b.id = sid)).isSome := by
    rw [List.find?_isSome]
    rcases h with ⟨y, hy, hyid⟩
    exact ⟨y, hy, by simpa using hyid⟩
  rcases Option.isSome_iff_exists.1 hsome with ⟨sat, hsat⟩
  rcases find_split hsat with ⟨u, v, heq, _⟩
  refine ⟨u, sat, v ++ rest, by rw [heq, List.append_assoc, List.cons_append], ?_, ?_⟩
  · rw [List.find?_append, hsat]
    rfl
  · rw [heq, List.length_append, List.length_cons]
    omega

/-- With backward-pointing satellite links, down-resolution is independent of
the fuel once the fuel covers the resolution depth. -/
theorem downAux_fuel_stable (sim : Simulation)
    (hs : ∀ u e v, sim.bodies = u ++ e :: v →
      ∀ sid ∈ e.satellites, ∃ y ∈ u, y.id = sid) :
    ∀ (k : ℕ) (ids : List ℤ) (fuel1 fuel2 : ℕ),
      (∀ sid ∈ ids, ∃ u sat v, sim.bodies = u ++ sat :: v ∧
        get_body_by_id sim sid = some sat ∧ u.length < k) →
      k ≤ fuel1 → k ≤ fuel2 →
      resolve_down_aux sim fuel1 ids = resolve_down_aux sim fuel2 ids := by
  intro k
  induction k using Nat.strong_induction_on with
  | _ k ihk =>
    intro ids
    induction ids with
    | nil =>
      intro fuel1 fuel2 _ _ _
      rw [downAux_nil, downAux_nil]
    | cons sid rest ihl =>
      intro fuel1 fuel2 hres hf1 hf2
      rcases hres sid (List.mem_cons_self sid rest) with
        ⟨u, sat, v, hsplit, hlook, hlen⟩
      cases fuel1 with
      | zero => omega
      | succ f1 =>
        cases fuel2 with
        | zero => omega
        | succ f2 =>
          simp only [resolve_down_aux, hlook]
          have hsats := hs u sat v hsplit
          have hres2 : ∀ sid2 ∈ sat.satellites, ∃ u2 sat2 v2,
              sim.bodies = u2 ++ sat2 :: v2 ∧
              get_body_by_id sim sid2 = some sat2 ∧ u2.length < u.length := by
            intro sid2 hs2
            rcases resolve_below_of_mem_prefix u (sat :: v) sid2
              (hsats sid2 hs2) with ⟨u2, sat2, v2, he, hf, hl⟩
            exact ⟨u2, sat2, v2, by rw [hsplit]; exact he,
              by rw [get_body_by_id_def, hsplit]; exact hf, hl⟩
          have e1 := ihk u.length hlen sat.satellites f1 u.length hres2
            (by omega) (le_refl _)
          have e2 := ihk u.length hlen sat.satellites f2 u.length hres2
            (by omega) (le_refl _)
          rw [e1, e2, ihl (f1 + 1) (f2 + 1)
            (fun s hsm => hres s (List.mem_cons_of_mem _ hsm)) hf1 hf2]

/-- Bodies appended at the end of the store do not change down-resolution of
ids that resolve among the existing bodies with backward-pointing links. -/
theorem downAux_append_stable (old new : List SimulatedBody) (c1 c2 : ℤ)
    (hs : ∀ u e v, old = u ++ e :: v →
      ∀ sid ∈ e.satellites, ∃ y ∈ u, y.id = sid) :
    ∀ (fuel : ℕ) (ids : List ℤ),
      (∀ sid ∈ ids, (old.find? (fun b => b.id = sid)).isSome) →
      resolve_down_aux ⟨old ++ new, c2⟩ fuel ids =
        resolve_down_aux ⟨old, c1⟩ fuel ids := by
  intro fuel
  induction fuel with
  | zero => intro ids _; simp [resolve_down_aux]
  | succ f ihf =>
    intro ids
    induction ids with
    | nil => intro _; simp [resolve_down_aux]
    | cons sid rest ihl =>
      intro hres
      rcases Option.isSome_iff_exists.1 (hres sid (List.mem_cons_self sid rest))
        with ⟨sat, hsat⟩
      have hlook1 : get_body_by_id ⟨old ++ new, c2⟩ sid = some sat := by
        rw [get_body_by_id_def]
        show (old ++ new).find? (fun b => b.id = sid) = some sat
        rw [List.find?_append, hsat]
        rfl
      have hlook2 : get_body_by_id ⟨old, c1⟩ sid = some sat := hsat
      simp only [resolve_down_aux, hlook1, hlook2]
      rcases find_split hsat with ⟨u, v, hsplit, _⟩
      have hsats := hs u sat v hsplit
      have hres2 : ∀ sid2 ∈ sat.satellites,
          (old.find? (fun b => b.id = sid2)).isSome := by
        intro sid2 hs2
        rw [List.find?_isSome]
        rcases hsats sid2 hs2 with ⟨y, hy, hyid⟩
        refine ⟨y, ?_, by simpa using hyid⟩
        rw [hsplit]
        exact List.mem_append_left _ hy
      rw [ihf sat.satellites hres2,
        ihl (fun s hsm => hres s (List.mem_cons_of_mem _ hsm))]

/-- Looking up a fresh-id record of an appended block finds it (old ids are
all smaller; block ids are duplicate-free). -/
theorem block_lookup (old blk : List SimulatedBody) (counter c2 : ℤ)
    (hold : ∀ e ∈ old, e.id < counter)
    (hblk : ∀ e ∈ blk, counter ≤ e.id)
    (hnd : (blk.map (fun e => e.id)).Nodup) :
    ∀ y ∈ blk, get_body_by_id ⟨old ++ blk, c2⟩ y.id = some y := by
  intro y hy
  rw [get_body_by_id_def]
  show (old ++ blk).find? (fun b => b.id = y.id) = some y
  rw [List.find?_append]
  have hnone : old.find? (fun b => b.id = y.id) = none := by
    rw [List.find?_eq_none]
    intro x hx
    simp only [decide_eq_true_eq]
    intro hc
    have h1 := hold x hx
    have h2 := hblk y hy
    omega
  rw [hnone]
  exact find_of_nodup_mem blk y hnd hy

/-- Every record produced by down-resolution is a stored record. -/
theorem downAux_mem (sim : Simulation) :
    ∀ (fuel : ℕ) (ids : List ℤ), ∀ d ∈ resolve_down_aux sim fuel ids,
      d ∈ sim.bodies := by
  intro fuel
  induction fuel with
  | zero => intro ids d hd; simp [resolve_down_aux] at hd
  | succ f ihf =>
    intro ids
    induction ids with
    | nil => intro d hd; simp [resolve_down_aux] at hd
    | cons sid rest ihl =>
      intro d hd
      unfold resolve_down_aux at hd
      rcases List.mem_append.1 hd with hin | hin
      · cases hsat : get_body_by_id sim sid with
        | none => rw [hsat] at hin; cases hin
        | some sat =>
          rw [hsat] at hin
          rcases List.mem_cons.1 hin with rfl | hin2
          · exact (get_body_by_id_mem hsat).1
          · exact ihf sat.satellites d hin2
      · exact ihl d hin

/-- Every scheduled id is the id of a stored record. -/
theorem sched_ids_are_stored (sim : Simulation) :
    ∀ x ∈ schedIds sim, ∃ e ∈ sim.bodies, e.id = x := by
  intro x hx
  unfold schedIds at hx
  rcases List.mem_flatMap.1 hx with ⟨b, _, hxseg⟩
  rcases hdy : b.body.dynamics with sd | od
  · rw [hdy] at hxseg
    rcases List.mem_map.1 hxseg with ⟨d, hd, hdid⟩
    exact ⟨d, downAux_mem sim _ _ d hd, hdid⟩
  · rw [hdy] at hxseg
    cases hxseg

/-- If the last occurrence of `x` in `A ++ B` is not a member of `B`, its
suffix is a suffix of `A` followed by all of `B`. -/
theorem last_split_in_left {α : Type} [DecidableEq α]
    {A B l1 l2 : List α} {x : α} (h : A ++ B = l1 ++ x :: l2)
    (hxB : x ∉ B) : ∃ w, A = l1 ++ x :: w ∧ l2 = w ++ B := by
  rcases List.append_eq_append_iff.1 h with ⟨a, _, h2⟩ | ⟨w, h1, h2⟩
  · exact absurd (h2 ▸ List.mem_append_right a (List.mem_cons_self x l2)) hxB
  · cases w with
    | nil =>
      rw [List.nil_append] at h2
      exact absurd (h2 ▸ List.mem_cons_self x l2) hxB
    | cons y w2 =>
      rw [List.cons_append] at h2
      injection h2 with he hv
      subst he
      exact ⟨w2, h1, hv⟩

/-- In a strictly increasing list, everything after an element exceeds it. -/
theorem sorted_split_gt {u l2 : List ℤ} {x : ℤ}
    (h : (u ++ x :: l2).Sorted (fun a b : ℤ => a < b)) :
    ∀ z ∈ l2, x < z := by
  rw [List.Sorted, List.pairwise_append] at h
  have h2 := h.2.1
  rw [List.pairwise_cons] at h2
  exact h2.1

/-- Down-resolution of the root ids of a freshly appended sibling forest
(looked up in any store that finds each block record under its id) lists
exactly the forest's pre-order descendant ids. -/
theorem downAux_block_desc (sim' : Simulation) :
    ∀ (bs : List Body) (c0 pid : ℤ) (fuel : ℕ),
      Body.sizeList bs ≤ fuel →
      (∀ y ∈ (flattenList c0 pid bs).1, get_body_by_id sim' y.id = some y) →
      (resolve_down_aux sim' fuel (flattenList c0 pid bs).2).map (fun s => s.id) =
        schedDescList c0 bs
  | [] => fun c0 pid fuel _ _ => by
    simp [flattenList, schedDescList, downAux_nil]
  | .mk nm dyn ms sats ax rp :: rest => fun c0 pid fuel hfuel hlk => by
    have hsz : Body.sizeList (Body.mk nm dyn ms sats ax rp :: rest) =
        1 + Body.sizeList sats + Body.sizeList rest := by
      rw [Body.sizeList, Body.size]
    rw [hsz] at hfuel
    cases fuel with
    | zero => omega
    | succ f =>
      rcases flattenBody_root (Body.mk nm dyn ms sats ax rp) c0 (some pid) with
        ⟨root, hlast, hrid, _, _, _, _, _, hrsats⟩
      simp only [Body.satellites] at hrsats
      have hrootmem : root ∈ flattenBody c0 (some pid) (Body.mk nm dyn ms sats ax rp) :=
        List.mem_of_mem_getLast? hlast
      have hlkroot : get_body_by_id sim' c0 = some root := by
        have h := hlk root (by
          simp only [flattenList]
          exact List.mem_append_left _ hrootmem)
        rwa [hrid] at h
      have hlk1 : ∀ y ∈ (flattenList (c0 + 1) c0 sats).1,
          get_body_by_id sim' y.id = some y := by
        intro y hy
        refine hlk y ?_
        simp only [flattenList]
        refine List.mem_append_left _ ?_
        simp only [flattenBody]
        exact List.mem_append_left _ hy
      have hlk2 : ∀ y ∈ (flattenList
          (c0 + (Body.size (Body.mk nm dyn ms sats ax rp) : ℤ)) pid rest).1,
          get_body_by_id sim' y.id = some y := by
        intro y hy
        refine hlk y ?_
        simp only [flattenList]
        exact List.mem_append_right _ hy
      have e1 := downAux_block_desc sim' sats (c0 + 1) c0 f (by omega) hlk1
      have e2 := downAux_block_desc sim' rest
        (c0 + (Body.size (Body.mk nm dyn ms sats ax rp) : ℤ)) pid (f + 1)
        (by
          have h1 : Body.sizeList rest ≤ f + 1 := by omega
          exact h1) hlk2
      simp only [flattenList]
      simp only [resolve_down_aux, hlkroot]
      rw [List.map_append, List.map_cons, hrsats, e1, e2, hrid]
      have hc : c0 + (Body.size (Body.mk nm dyn ms sats ax rp) : ℤ) =
          c0 + 1 + (Body.sizeList sats : ℤ) := by
        rw [Body.size]
        push_cast
        ring
      rw [hc]
      simp only [schedDescList, List.cons_append]

/-- Appending a flattened block preserves backward-pointing satellite
links. -/
theorem backref_append (old : List SimulatedBody) (b : Body) (c : ℤ)
    (p : Option ℤ)
    (hs : ∀ u e v, old = u ++ e :: v →
      ∀ sid ∈ e.satellites, ∃ y ∈ u, y.id = sid) :
    ∀ u e v, old ++ flattenBody c p b = u ++ e :: v →
      ∀ sid ∈ e.satellites, ∃ y ∈ u, y.id = sid := by
  intro u e v heq sid hsid
  rcases List.append_eq_append_iff.1 heq with ⟨a, h1, h2⟩ | ⟨w, h1, h2⟩
  · rcases flattenBody_backref b c p a e v h2 sid hsid with ⟨y, hy, hyid⟩
    exact ⟨y, by rw [h1]; exact List.mem_append_right _ hy, hyid⟩
  · cases w with
    | nil =>
      rw [List.nil_append] at h2
      rcases flattenBody_backref b c p [] e v h2.symm sid hsid with ⟨y, hy, _⟩
      exact absurd hy (by simp)
    | cons x w2 =>
      rw [List.cons_append] at h2
      injection h2 with he hv
      subst he
      exact hs u e w2 h1 sid hsid

/-- Down-resolution of an already-stored body is unchanged by registering a
new hierarchy. -/
theorem resolve_down_old_eq (sim : Simulation) (hinv : simInv sim) (b : Body)
    (p : Option ℤ) (c2 : ℤ) (e : SimulatedBody) (he : e ∈ sim.bodies) :
    resolve_hierarchy_down
        ⟨sim.bodies ++ flattenBody sim.id_counter p b, c2⟩ e =
      resolve_hierarchy_down sim e := by
  rcases List.append_of_mem he with ⟨u0, v0, hsplit⟩
  have hu0len : u0.length ≤ sim.bodies.length := by
    rw [hsplit, List.length_append, List.length_cons]
    omega
  have hmatch : ∀ sid ∈ e.satellites, ∃ y ∈ u0, y.id = sid :=
    hinv.2.2 u0 e v0 hsplit
  set fb := flattenBody sim.id_counter p b with hfb
  set sim' : Simulation := ⟨sim.bodies ++ fb, c2⟩ with hsim'
  have hassoc : sim.bodies ++ fb = u0 ++ (e :: (v0 ++ fb)) := by
    rw [hsplit, List.append_assoc, List.cons_append]
  have hs' : ∀ u x v, sim'.bodies = u ++ x :: v →
      ∀ sid ∈ x.satellites, ∃ y ∈ u, y.id = sid :=
    backref_append sim.bodies b sim.id_counter p hinv.2.2
  have hres : ∀ sid ∈ e.satellites, ∃ u sat v,
      sim'.bodies = u ++ sat :: v ∧
      get_body_by_id sim' sid = some sat ∧ u.length < sim.bodies.length := by
    intro sid hsid
    rcases resolve_below_of_mem_prefix u0 (e :: (v0 ++ fb)) sid
      (hmatch sid hsid) with ⟨u, sat, v, heq, hf, hlen⟩
    refine ⟨u, sat, v, by rw [show sim'.bodies = sim.bodies ++ fb from rfl, hassoc]; exact heq, ?_, by omega⟩
    rw [get_body_by_id_def]
    show (sim.bodies ++ fb).find? (fun x => x.id = sid) = some sat
    rw [hassoc]
    exact hf
  have hres2 : ∀ sid ∈ e.satellites,
      (sim.bodies.find? (fun x => x.id = sid)).isSome := by
    intro sid hsid
    rw [List.find?_isSome]
    rcases hmatch sid hsid with ⟨y, hy, hyid⟩
    refine ⟨y, ?_, by simpa using hyid⟩
    rw [hsplit]
    exact List.mem_append_left _ hy
  unfold resolve_hierarchy_down
  have hA : resolve_down_aux sim' sim'.bodies.length e.satellites =
      resolve_down_aux sim' sim.bodies.length e.satellites := by
    refine downAux_fuel_stable sim' hs' sim.bodies.length e.satellites _ _
      hres ?_ (le_refl _)
    show sim.bodies.length ≤ (sim.bodies ++ fb).length
    rw [List.length_append]
    omega
  rw [hA]
  have hB : resolve_down_aux ⟨sim.bodies ++ fb, c2⟩ sim.bodies.length
      e.satellites =
      resolve_down_aux ⟨sim.bodies, sim.id_counter⟩ sim.bodies.length
        e.satellites :=
    downAux_append_stable sim.bodies fb sim.id_counter c2 hinv.2.2
      sim.bodies.length e.satellites hres2
  exact hB

/-- Pointwise-equal functions flat-map equally. -/
theorem flatMap_congr_mem {α β : Type} :
    ∀ (l : List α) (f g : α → List β), (∀ a ∈ l, f a = g a) →
      l.flatMap f = l.flatMap g := by
  intro l
  induction l with
  | nil => intro f g _; rfl
  | cons a rest ih =>
    intro f g h
    rw [List.flatMap_cons, List.flatMap_cons, h a (List.mem_cons_self a rest),
      ih f g (fun x hx => h x (List.mem_cons_of_mem a hx))]

mutual

/-- The schedule contribution of one freshly appended tree block equals its
`blockSchedB` description. -/
theorem flatMapSched_body (sim' : Simulation) :
    ∀ (b : Body) (c : ℤ) (p : Option ℤ),
      Body.size b ≤ sim'.bodies.length →
      (∀ y ∈ flattenBody c p b, get_body_by_id sim' y.id = some y) →
      (flattenBody c p b).flatMap (fun e =>
        match e.body.dynamics with
        | .static _ => (resolve_hierarchy_down sim' e).map (fun s => s.id)
        | .orbiting _ => []) = blockSchedB c b
  | .mk nm dyn ms sats ax rp => fun c p hfuel hlk => by
    have hsz : Body.size (Body.mk nm dyn ms sats ax rp) =
        1 + Body.sizeList sats := by
      rw [Body.size]
    rw [hsz] at hfuel
    have hlk1 : ∀ y ∈ (flattenList (c + 1) c sats).1,
        get_body_by_id sim' y.id = some y := by
      intro y hy
      refine hlk y ?_
      simp only [flattenBody]
      exact List.mem_append_left _ hy
    have h1 := flatMapSched_list sim' sats (c + 1) c (by omega) hlk1
    simp only [flattenBody]
    rw [List.flatMap_append, h1]
    simp only [blockSchedB]
    refine congrArg (fun z => blockSchedList (c + 1) sats ++ z) ?_
    simp only [List.flatMap_cons, List.flatMap_nil, List.append_nil]
    cases dyn with
    | static sd =>
      simp only [Body.dynamics]
      show (resolve_hierarchy_down sim' _).map (fun s => s.id) =
        schedDescList (c + 1) sats
      unfold resolve_hierarchy_down
      exact downAux_block_desc sim' sats (c + 1) c sim'.bodies.length
        (by omega) hlk1
    | orbiting od =>
      simp only [Body.dynamics]

/-- The schedule contribution of freshly appended sibling blocks equals their
`blockSchedList` description. -/
theorem flatMapSched_list (sim' : Simulation) :
    ∀ (bs : List Body) (c pid : ℤ),
      Body.sizeList bs ≤ sim'.bodies.length →
      (∀ y ∈ (flattenList c pid bs).1, get_body_by_id sim' y.id = some y) →
      (flattenList c pid bs).1.flatMap (fun e =>
        match e.body.dynamics with
        | .static _ => (resolve_hierarchy_down sim' e).map (fun s => s.id)
        | .orbiting _ => []) = blockSchedList c bs
  | [] => fun c pid _ _ => by simp [flattenList, blockSchedList]
  | b :: rest => fun c pid hfuel hlk => by
    have hszl : Body.sizeList (b :: rest) =
        Body.size b + Body.sizeList rest := by
      rw [Body.sizeList]
    rw [hszl] at hfuel
    have hlkb : ∀ y ∈ flattenBody c (some pid) b,
        get_body_by_id sim' y.id = some y := by
      intro y hy
      refine hlk y ?_
      simp only [flattenList]
      exact List.mem_append_left _ hy
    have hlkr : ∀ y ∈ (flattenList (c + (Body.size b : ℤ)) pid rest).1,
        get_body_by_id sim' y.id = some y := by
      intro y hy
      refine hlk y ?_
      simp only [flattenList]
      exact List.mem_append_right _ hy
    have h1 := flatMapSched_body sim' b c (some pid) (by omega) hlkb
    have h2 := flatMapSched_list sim' rest (c + (Body.size b : ℤ)) pid
      (by omega) hlkr
    simp only [flattenList]
    rw [List.flatMap_append, h1, h2]
    simp only [blockSchedList]

end

/-- The id list of a flattened tree block is duplicate-free. -/
theorem flattenBody_ids_nodup (b : Body) (c : ℤ) (p : Option ℤ) :
    ((flattenBody c p b).map (fun e => e.id)).Nodup := by
  refine (List.Perm.nodup_iff (flattenBody_ids_perm b c p)).2 ?_
  refine List.Nodup.map ?_ (List.nodup_range _)
  intro i j h
  dsimp only at h
  omega

/-- Registering a tree appends exactly its `blockSchedB` entries to the
schedule. -/
theorem schedIds_add (sim : Simulation) (b : Body) (p : Option ℤ)
    (hinv : simInv sim) :
    schedIds (add_hierarchy sim b p).1 =
      schedIds sim ++ blockSchedB sim.id_counter b := by
  rw [add_hierarchy_eq_flatten]
  set fb := flattenBody sim.id_counter p b with hfb
  set c2 : ℤ := sim.id_counter + (Body.size b : ℤ) with hc2
  show schedIds ⟨sim.bodies ++ fb, c2⟩ =
    schedIds sim ++ blockSchedB sim.id_counter b
  set sim' : Simulation := ⟨sim.bodies ++ fb, c2⟩ with hsim'
  have hblen : fb.length = Body.size b := flattenBody_length b sim.id_counter p
  have hlen' : sim'.bodies.length = sim.bodies.length + Body.size b := by
    show (sim.bodies ++ fb).length = sim.bodies.length + Body.size b
    rw [List.length_append, hblen]
  have hlkblk : ∀ y ∈ fb, get_body_by_id sim' y.id = some y := by
    refine block_lookup sim.bodies fb sim.id_counter c2 hinv.1 ?_ ?_
    · intro e he
      exact (flattenBody_id_bounds b sim.id_counter p e he).1
    · exact flattenBody_ids_nodup b sim.id_counter p
  unfold schedIds
  rw [show sim'.bodies = sim.bodies ++ fb from rfl, List.flatMap_append]
  refine congrArg₂ (fun x y => x ++ y) ?_ ?_
  · refine flatMap_congr_mem sim.bodies _ _ ?_
    intro e he
    cases hdy : e.body.dynamics with
    | static sd =>
      simp only [hdy]
      rw [resolve_down_old_eq sim hinv b p c2 e he]
    | orbiting od =>
      simp only [hdy]
  · refine flatMapSched_body sim' b sim.id_counter p ?_ hlkblk
    rw [hlen']
    omega

mutual

/-- Within one tree's schedule contribution, at the last occurrence of a
non-root record's id the record's parent id never occurs at or after it:
parents are fully scheduled before their satellites' last updates. -/
theorem blockSchedB_parent_cond : ∀ (b : Body) (c : ℤ) (p : Option ℤ)
    (y : SimulatedBody), y ∈ flattenBody c p b → y.id ≠ c →
    ∀ q, y.parent = some q →
    ∀ l1 l2, blockSchedB c b = l1 ++ y.id :: l2 → y.id ∉ l2 →
      q ∉ y.id :: l2
  | .mk nm dyn ms sats ax rp => fun c p y hy hne q hq l1 l2 hsplit hout => by
    simp only [flattenBody] at hy
    have hy1 : y ∈ (flattenList (c + 1) c sats).1 := by
      rcases List.mem_append.1 hy with hin | hin
      · exact hin
      · rcases List.mem_singleton.1 hin with rfl
        exact absurd rfl hne
    cases dyn with
    | orbiting od =>
      simp only [blockSchedB, List.append_nil] at hsplit
      exact blockSchedList_parent_cond sats (c + 1) c (by omega) y hy1 q hq
        l1 l2 hsplit hout
    | static sd =>
      simp only [blockSchedB] at hsplit
      have hyB : y.id ∈ schedDescList (c + 1) sats :=
        mem_schedDesc_of_flatten sats (c + 1) c y hy1
      rcases last_split_in_right hsplit hout hyB with ⟨u, hB⟩
      have hsorted := schedDescList_sorted sats (c + 1)
      rw [hB] at hsorted
      have hgt := sorted_split_gt hsorted
      have hybound := (flattenList_id_bounds sats (c + 1) c y hy1).1
      have hqlt : q < y.id := by
        rcases flattenList_parent_lt sats (c + 1) c y hy1 q hq with hqc | hqr
        · omega
        · exact hqr.2
      intro hmem
      rcases List.mem_cons.1 hmem with heq | hin
      · omega
      · have := hgt q hin
        omega

/-- Within a sibling forest's schedule contribution (all block ids at least
`c`, enclosing parent id below `c`), at the last occurrence of a record's id
the record's parent id never occurs at or after it. -/
theorem blockSchedList_parent_cond : ∀ (bs : List Body) (c pid : ℤ),
    pid < c →
    ∀ (y : SimulatedBody), y ∈ (flattenList c pid bs).1 →
    ∀ q, y.parent = some q →
    ∀ l1 l2, blockSchedList c bs = l1 ++ y.id :: l2 → y.id ∉ l2 →
      q ∉ y.id :: l2
  | [] => fun c pid _ y hy => by simp [flattenList] at hy
  | b :: rest => fun c pid hpid y hy q hq l1 l2 hsplit hout => by
    simp only [flattenList] at hy
    simp only [blockSchedList] at hsplit
    have hsp : 1 ≤ Body.size b := Body.size_pos b
    rcases List.mem_append.1 hy with hyblk | hyrest
    · have hyb := flattenBody_id_bounds b c (some pid) y hyblk
      by_cases hyc : y.id = c
      · exfalso
        have hmem : y.id ∈ blockSchedB c b ++
            blockSchedList (c + (Body.size b : ℤ)) rest := by
          rw [hsplit]
          exact List.mem_append_right _ (List.mem_cons_self _ _)
        rcases List.mem_append.1 hmem with hin | hin
        · have := (blockSchedB_bounds b c y.id hin).1
          omega
        · have := (blockSchedList_bounds rest (c + (Body.size b : ℤ)) y.id hin).1
          omega
      · have hynB : y.id ∉ blockSchedList (c + (Body.size b : ℤ)) rest := by
          intro hin
          have := (blockSchedList_bounds rest (c + (Body.size b : ℤ)) y.id hin).1
          have := hyb.2
          omega
        rcases last_split_in_left hsplit hynB with ⟨w, hA, hl2⟩
        have houtw : y.id ∉ w := by
          intro hin
          exact hout (by rw [hl2]; exact List.mem_append_left _ hin)
        have hrec := blockSchedB_parent_cond b c (some pid) y hyblk hyc q hq
          l1 w hA houtw
        have hqlt : q < y.id := by
          rcases flattenBody_parent_lt b c (some pid) y hyblk q hq with
            ⟨hidc, _⟩ | hqr
          · exact absurd hidc hyc
          · exact hqr.2
        have hqnB : q ∉ blockSchedList (c + (Body.size b : ℤ)) rest := by
          intro hin
          have := (blockSchedList_bounds rest (c + (Body.size b : ℤ)) q hin).1
          have := hyb.2
          omega
        intro hmem
        rcases List.mem_cons.1 hmem with heq | hin
        · exact hrec (heq ▸ List.mem_cons_self _ _)
        · rw [hl2] at hin
          rcases List.mem_append.1 hin with hw | hB
          · exact hrec (List.mem_cons_of_mem _ hw)
          · exact hqnB hB
    · have hyb := flattenList_id_bounds rest (c + (Body.size b : ℤ)) pid y hyrest
      have hynA : y.id ∉ blockSchedB c b := by
        intro hin
        have := (blockSchedB_bounds b c y.id hin).2
        have := hyb.1
        omega
      have hyB : y.id ∈ blockSchedList (c + (Body.size b : ℤ)) rest := by
        have hmem : y.id ∈ blockSchedB c b ++
            blockSchedList (c + (Body.size b : ℤ)) rest := by
          rw [hsplit]
          exact List.mem_append_right _ (List.mem_cons_self _ _)
        rcases List.mem_append.1 hmem with hin | hin
        · exact absurd hin hynA
        · exact hin
      rcases last_split_in_right hsplit hout hyB with ⟨u, hB⟩
      exact blockSchedList_parent_cond rest (c + (Body.size b : ℤ)) pid
        (by omega) y hyrest q hq u l2 hB hout

end

/-- Every id in a flattened block's id range is carried by some block
record. -/
theorem flattenBody_id_exists (b : Body) (c : ℤ) (p : Option ℤ) (x : ℤ)
    (h1 : c ≤ x) (h2 : x < c + (Body.size b : ℤ)) :
    ∃ y ∈ flattenBody c p b, y.id = x := by
  have hperm := flattenBody_ids_perm b c p
  have hmem : x ∈ (List.range (Body.size b)).map (fun i : ℕ => c + (i : ℤ)) := by
    refine List.mem_map.2 ⟨(x - c).toNat, ?_, ?_⟩
    · refine List.mem_range.2 ?_
      omega
    · omega
  have hmem2 : x ∈ (flattenBody c p b).map (fun e => e.id) :=
    hperm.mem_iff.2 hmem
  rcases List.mem_map.1 hmem2 with ⟨y, hy, hyid⟩
  exact ⟨y, hy, hyid⟩

/-- Lookup of an id stored among the first bodies ignores appended ones. -/
theorem find_append_old (old new : List SimulatedBody) (x : ℤ)
    (h : ∃ e ∈ old, e.id = x) :
    (old ++ new).find? (fun b => b.id = x) = old.find? (fun b => b.id = x) := by
  have hsome : (old.find? (fun b => b.id = x)).isSome := by
    rw [List.find?_isSome]
    rcases h with ⟨e, he, heid⟩
    exact ⟨e, he, by simpa using heid⟩
  rcases Option.isSome_iff_exists.1 hsome with ⟨y, hy⟩
  rw [List.find?_append, hy]
  rfl

/-- `add_hierarchy` preserves the structural store invariant. -/
theorem simInv_add (sim : Simulation) (b : Body) (p : Option ℤ)
    (hinv : simInv sim) : simInv (add_hierarchy sim b p).1 := by
  rw [add_hierarchy_eq_flatten]
  set fb := flattenBody sim.id_counter p b with hfb
  refine ⟨?_, ?_, ?_⟩
  · intro e he
    show e.id < sim.id_counter + (Body.size b : ℤ)
    have hsp : (1 : ℤ) ≤ (Body.size b : ℤ) := by
      exact_mod_cast Body.size_pos b
    rcases List.mem_append.1 he with hin | hin
    · have := hinv.1 e hin
      omega
    · exact (flattenBody_id_bounds b sim.id_counter p e hin).2
  · show ((sim.bodies ++ fb).map (fun e => e.id)).Nodup
    rw [List.map_append]
    refine List.Nodup.append hinv.2.1
      (flattenBody_ids_nodup b sim.id_counter p) ?_
    intro a ha hafb
    rcases List.mem_map.1 ha with ⟨e, he, heid⟩
    rcases List.mem_map.1 hafb with ⟨y, hy, hyid⟩
    have h1 := hinv.1 e he
    have h2 := (flattenBody_id_bounds b sim.id_counter p y hy).1
    omega
  · exact backref_append sim.bodies b sim.id_counter p hinv.2.2

/-- `add_hierarchy` preserves the property that every scheduled body's stored
parent id names a stored body. -/
theorem schedPar_add (sim : Simulation) (b : Body) (p : Option ℤ)
    (hinv : simInv sim)
    (hpar : ∀ id ∈ schedIds sim, ∀ y, get_body_by_id sim id = some y →
      ∀ q, y.parent = some q → ∃ z ∈ sim.bodies, z.id = q) :
    ∀ id ∈ schedIds (add_hierarchy sim b p).1,
      ∀ y, get_body_by_id (add_hierarchy sim b p).1 id = some y →
      ∀ q, y.parent = some q →
        ∃ z ∈ (add_hierarchy sim b p).1.bodies, z.id = q := by
  have hsched := schedIds_add sim b p hinv
  rw [add_hierarchy_eq_flatten] at hsched
  rw [add_hierarchy_eq_flatten]
  dsimp only
  intro id hid y hy q hq
  rw [hsched] at hid
  rcases List.mem_append.1 hid with hidOld | hidNew
  · have hstored := sched_ids_are_stored sim id hidOld
    have hfind : (sim.bodies ++ flattenBody sim.id_counter p b).find?
        (fun e => e.id = id) = sim.bodies.find? (fun e => e.id = id) :=
      find_append_old _ _ id hstored
    have hyold : get_body_by_id sim id = some y := by
      rw [get_body_by_id_def, ← hfind]
      exact hy
    rcases hpar id hidOld y hyold q hq with ⟨z, hz, hzid⟩
    exact ⟨z, List.mem_append_left _ hz, hzid⟩
  · have hb := blockSchedB_bounds b sim.id_counter id hidNew
    rcases flattenBody_id_exists b sim.id_counter p id (by omega) hb.2 with
      ⟨y', hy', hy'id⟩
    have hlk := block_lookup sim.bodies (flattenBody sim.id_counter p b)
      sim.id_counter (sim.id_counter + (Body.size b : ℤ)) hinv.1
      (fun e he => (flattenBody_id_bounds b sim.id_counter p e he).1)
      (flattenBody_ids_nodup b sim.id_counter p) y' hy'
    rw [hy'id] at hlk
    rw [hy] at hlk
    injection hlk with hyy
    subst hyy
    rcases flattenBody_parent_lt b sim.id_counter p y hy' q hq with
      ⟨hc, _⟩ | ⟨hq1, hq2⟩
    · omega
    · rcases flattenBody_id_exists b sim.id_counter p q hq1 (by omega) with
        ⟨z, hz, hzid⟩
      exact ⟨z, List.mem_append_right _ hz, hzid⟩

/-- `add_hierarchy` preserves the schedule well-ordering. -/
theorem schedOK_add (sim : Simulation) (b : Body) (p : Option ℤ)
    (hinv : simInv sim) (hok : schedOK sim)
    (hpar : ∀ id ∈ schedIds sim, ∀ y, get_body_by_id sim id = some y →
      ∀ q, y.parent = some q → ∃ z ∈ sim.bodies, z.id = q) :
    schedOK (add_hierarchy sim b p).1 := by
  have hsched := schedIds_add sim b p hinv
  rw [add_hierarchy_eq_flatten] at hsched
  unfold schedOK
  rw [add_hierarchy_eq_flatten]
  dsimp only
  set sim' : Simulation :=
    ⟨sim.bodies ++ flattenBody sim.id_counter p b,
      sim.id_counter + (Body.size b : ℤ)⟩ with hsim'
  rw [show schedIds sim' = schedIds sim ++ blockSchedB sim.id_counter b
    from hsched]
  refine (schedOKAuxB_iff_splits sim' _).2 ?_
  intro l1 id l2 heq hout
  have hOldlt : ∀ x ∈ schedIds sim, x < sim.id_counter := by
    intro x hx
    rcases sched_ids_are_stored sim x hx with ⟨e, he, heid⟩
    rw [← heid]
    exact hinv.1 e he
  have hidmem : id ∈ schedIds sim ++ blockSchedB sim.id_counter b := by
    rw [heq]
    exact List.mem_append_right _ (List.mem_cons_self _ _)
  have hlkblk : ∀ y ∈ flattenBody sim.id_counter p b,
      get_body_by_id sim' y.id = some y :=
    block_lookup sim.bodies _ sim.id_counter _ hinv.1
      (fun e he => (flattenBody_id_bounds b sim.id_counter p e he).1)
      (flattenBody_ids_nodup b sim.id_counter p)
  rcases List.mem_append.1 hidmem with hidOld | hidNew
  · have hidlt := hOldlt id hidOld
    have hidnNew : id ∉ blockSchedB sim.id_counter b := by
      intro hin
      have := (blockSchedB_bounds b sim.id_counter id hin).1
      omega
    rcases last_split_in_left heq hidnNew with ⟨w, hOld, hl2⟩
    have houtw : id ∉ w := fun hin =>
      hout (by rw [hl2]; exact List.mem_append_left _ hin)
    have hcond := (schedOKAuxB_iff_splits sim (schedIds sim)).1 hok
      l1 id w hOld houtw
    have hstored := sched_ids_are_stored sim id hidOld
    have hfind : get_body_by_id sim' id = get_body_by_id sim id := by
      rw [get_body_by_id_def, get_body_by_id_def]
      exact find_append_old _ _ id hstored
    unfold lastOccCondB at hcond ⊢
    rw [hfind]
    cases hlook : get_body_by_id sim id with
    | none =>
      rfl
    | some yb =>
      rw [hlook] at hcond
      cases hdy : yb.body.dynamics with
      | static sd =>
        cases hp : yb.parent <;> simp only [hdy, hp]
      | orbiting od =>
        cases hp : yb.parent with
        | none => simp only [hdy, hp]
        | some pid =>
          simp only [hdy, hp] at hcond ⊢
          simp only [Bool.and_eq_true, decide_eq_true_eq] at hcond ⊢
          have hplt : pid < sim.id_counter := by
            rcases hpar id hidOld yb hlook pid hp with ⟨z, hz, hzid⟩
            rw [← hzid]
            exact hinv.1 z hz
          have hpnN : pid ∉ blockSchedB sim.id_counter b := by
            intro hin
            have := (blockSchedB_bounds b sim.id_counter pid hin).1
            omega
          refine ⟨hcond.1, ?_⟩
          rw [hl2]
          intro hmem
          rcases List.mem_append.1 hmem with hmw | hmN
          · exact hcond.2 hmw
          · exact hpnN hmN
  · have hb := blockSchedB_bounds b sim.id_counter id hidNew
    rcases last_split_in_right heq hout hidNew with ⟨u, hNew⟩
    rcases flattenBody_id_exists b sim.id_counter p id (by omega) hb.2 with
      ⟨y, hyfb, hyid⟩
    have hlk := hlkblk y hyfb
    rw [← hyid] at hNew hout
    unfold lastOccCondB
    rw [← hyid]
    cases hdy : y.body.dynamics with
    | static sd =>
      cases hp : y.parent <;> simp only [hlk, hdy, hp]
    | orbiting od =>
      cases hp : y.parent with
      | none => simp only [hlk, hdy, hp]
      | some q =>
        simp only [hlk, hdy, hp]
        have hcond := blockSchedB_parent_cond b sim.id_counter p y hyfb
          (by omega) q hp u l2 hNew hout
        simp only [Bool.and_eq_true, decide_eq_true_eq]
        constructor
        · intro hc
          exact hcond (hc ▸ List.mem_cons_self _ _)
        · intro hmem
          exact hcond (List.mem_cons_of_mem _ hmem)

/-- A successful `update` preserves the property that every scheduled body's
stored parent id names a stored body. -/
theorem schedPar_upd {D : DecimalOps} {sim sim' : Simulation} {t : ℚ}
    (h : update D sim t = some sim')
    (hpar : ∀ id ∈ schedIds sim, ∀ y, get_body_by_id sim id = some y →
      ∀ q, y.parent = some q → ∃ z ∈ sim.bodies, z.id = q) :
    ∀ id ∈ schedIds sim', ∀ y, get_body_by_id sim' id = some y →
      ∀ q, y.parent = some q → ∃ z ∈ sim'.bodies, z.id = q := by
  have h0 : runSchedule D t (schedIds sim) sim = some sim' := h
  have hstrip : sim'.bodies.map SimulatedBody.stripState =
      sim.bodies.map SimulatedBody.stripState := (runSchedule_strip h0).1
  intro id hid y hy q hq
  rw [schedIds_strip hstrip] at hid
  have hfind := find_strip_congr id sim'.bodies sim.bodies hstrip
  rw [← get_body_by_id_def, ← get_body_by_id_def, hy] at hfind
  cases hy0 : get_body_by_id sim id with
  | none => rw [hy0] at hfind; cases hfind
  | some y0 =>
    rw [hy0] at hfind
    have hstrip0 : y.stripState = y0.stripState := by simpa using hfind
    rcases stripState_parts hstrip0 with ⟨_, _, hparent, _⟩
    rcases hpar id hid y0 hy0 q (by rw [← hparent]; exact hq) with ⟨z, hz, hzid⟩
    rcases strip_mem_correspond sim.bodies sim'.bodies hstrip.symm z hz with
      ⟨z2, hz2, hzz⟩
    exact ⟨z2, hz2, by rw [← (stripState_parts hzz).1]; exact hzid⟩

/-- Every API-reachable simulation satisfies the structural store invariant,
stores the parent of every scheduled body, and has a well-ordered schedule. -/
theorem reachable_inv : ∀ (sim : Simulation), Reachable sim →
    simInv sim ∧
    (∀ id ∈ schedIds sim, ∀ y, get_body_by_id sim id = some y →
      ∀ q, y.parent = some q → ∃ z ∈ sim.bodies, z.id = q) ∧
    schedOK sim := by
  intro sim h
  induction h with
  | base =>
    refine ⟨⟨?_, ?_, ?_⟩, ?_, ?_⟩
    · intro e he
      cases he
    · exact List.nodup_nil
    · intro u e v heq
      exact absurd heq.symm (List.append_ne_nil_of_right_ne_nil u (by simp))
    · intro id hid
      cases hid
    · rfl
  | add sim b p hr ih =>
    exact ⟨simInv_add sim b p ih.1,
      schedPar_add sim b p ih.1 ih.2.1,
      schedOK_add sim b p ih.1 ih.2.2 ih.2.1⟩
  | upd D sim t sim' hr hupd ih =>
    have h0 : runSchedule D t (schedIds sim) sim = some sim' := hupd
    have hstrip : sim'.bodies.map SimulatedBody.stripState =
        sim.bodies.map SimulatedBody.stripState := (runSchedule_strip h0).1
    have hcnt : sim'.id_counter = sim.id_counter := (runSchedule_strip h0).2
    exact ⟨simInv_strip hstrip.symm hcnt.symm ih.1,
      schedPar_upd hupd ih.2.1,
      schedOK_update_preserved hupd ih.2.2⟩

/-- C4: `update(t)` is idempotent — from any state reachable through the
public API (a fresh simulation extended by arbitrary `add_hierarchy` calls
and successful updates), running `update` a second time at the same `t`
succeeds and leaves every body's position, velocity and orientation (the
whole state) unchanged. -/
theorem claim_C4_update_idempotent (D : DecimalOps) (sim : Simulation)
    (t : ℚ) (sim' : Simulation) (hr : Reachable sim)
    (h : update D sim t = some sim') :
    update D sim' t = some sim' :=
  update_idempotent_of_schedOK D sim t sim' (reachable_inv sim hr).2.2 h

/-- Witness for C4 on the concrete three-body simulation. -/
theorem claim_C4_update_idempotent_witness :
    Reachable testSim ∧ update testOps testSim 5 = some testSim1 ∧
      update testOps testSim1 5 = some testSim1 :=
  ⟨Reachable.add Simulation.new sunB none Reachable.base,
   by with_unfolding_all decide,
   claim_C4_update_idempotent testOps testSim 5 testSim1
     (Reachable.add Simulation.new sunB none Reachable.base)
     (by with_unfolding_all decide)⟩
